import Mathlib

/-!
# Verification of the WQF autoregressive forecast algorithm and dataset builder

This development embeds the core of the `bcdev/fcwq-wqf` repository in Lean:

* `src/wqf/algorithms/forecast.py` — the `Forecast` block algorithm
  (`forecast`, `fc`, `_predict`, `history`, `load_model`, `table`,
  `created_axes`, `dropped_axes`);
* `src/wqf/datasetbuilder.py` — the `DatasetBuilder` class
  (`add_dim`, `add_var`, `add_array`, `_add_array`).

Modelling conventions:

* Array element values (numpy `single`) are modelled by the inductive type
  `WQF.Val`: a finite value carries a rational; `nan`, `pinf` and `ninf`
  model the IEEE specials that matter to the code (`np.isfinite`,
  `np.maximum(0.0, ·)` with NaN propagation).  The `astype` dtype
  conversions in the source are value-preserving in this model (rounding
  to `float32` is immaterial to the claims, which never depend on
  precision); the `copy=` flag of `astype` is about aliasing and is
  modelled explicitly by the store semantics (`fcST`, `forecastST`).
* A 3-d `day × lat × lon` numpy array is modelled as `WQF.Arr`, a list of
  days, each day a list of pixel values (`WQF.Grid`).  The source
  flattens the two spatial axes with `np.ravel` when building prediction
  tables and restores them with `reshape`; since ravel/reshape are
  inverse bijections and no claim distinguishes the two spatial axes,
  the model uses the raveled pixel axis directly.
* Python negative indexing and slicing are modelled by `pyIdx`, `pyGet`,
  `pySet`, `pySlice` and `pySliceLast`; an out-of-range index raises
  `IndexError` in Python and yields `Err.indexError` here.  A dictionary
  lookup failure (`KeyError`) yields `Err.keyError`; `np.stack` on an
  empty or ragged list of columns raises `ValueError`, modelled by
  `Err.stackError`; `np.empty` with a negative leading dimension (test
  mode) raises `ValueError`, modelled by `Err.valueError`.
* The XGBoost `Booster` is an opaque point predictor; it is modelled by
  `WQF.Model`, a list of feature columns (in the model's declared column
  order, which `load_model` establishes by sorting on column index, i.e.
  declaration order) together with a per-row prediction function.
-/

set_option autoImplicit false

namespace WQF

/-- `VID_CHL` from `src/wqf/interface/constants.py`. -/
def VID_CHL : String := "chl"

/-- `VID_NO3` from `src/wqf/interface/constants.py`. -/
def VID_NO3 : String := "no3"

/-- A numpy `single` value: finite (rational), NaN, `+inf` or `-inf`. -/
inductive Val where
  | fin (x : ℚ)
  | nan
  | pinf
  | ninf
deriving DecidableEq, Repr

/-- `np.isfinite` on one value. -/
def Val.isFinite : Val → Bool
  | .fin _ => true
  | _ => false

/-- `np.maximum(0.0, v)`: NaN propagates, `-inf` clips to `0`. -/
def Val.max0 : Val → Val
  | .fin x => .fin (max 0 x)
  | .nan => .nan
  | .pinf => .pinf
  | .ninf => .fin 0

/-- A value that is zero or greater (`+inf` counts; NaN and `-inf` do not). -/
def Val.nonneg : Val → Prop
  | .fin x => 0 ≤ x
  | .pinf => True
  | _ => False

/-- One day slice of a feature array, flattened to the pixel axis. -/
abbrev Grid := List Val

/-- A `day × pixel` feature array. -/
abbrev Arr := List Grid

/-- Python list/array indexing: negative indices count from the end;
an index out of range on either side gives `none` (`IndexError`). -/
def pyIdx (len : Nat) (i : Int) : Option Nat :=
  if i < 0 then
    if (len : Int) + i < 0 then none else some ((len : Int) + i).toNat
  else if i < (len : Int) then some i.toNat else none

/-- `a[i]` with Python indexing semantics. -/
def pyGet (a : Arr) (i : Int) : Option Grid :=
  (pyIdx a.length i).bind fun j => a.get? j

/-- `a[i] = g` with Python indexing semantics. -/
def pySet (a : Arr) (i : Int) (g : Grid) : Option Arr :=
  (pyIdx a.length i).map fun j => a.set j g

/-- `a[t : u]` for non-negative bounds (the only form the source uses). -/
def pySlice (a : Arr) (t u : Nat) : Arr :=
  (a.drop t).take (u - t)

/-- `a[-H :]` — Python semantics: `-0` is `0`, so `H = 0` yields the whole
list; `H ≥ len` also yields the whole list. -/
def pySliceLast (H : Nat) (a : Arr) : Arr :=
  if H = 0 then a else a.drop (a.length - H)

/-- The failures the forecast code can raise (see the module docstring for
the Python exception each constructor models). -/
inductive Err where
  | keyError (name : String)
  | indexError
  | stackError
  | valueError
deriving DecidableEq, Repr

instance instDecEqExcept {ε α : Type} [DecidableEq ε] [DecidableEq α] :
    DecidableEq (Except ε α) := fun a b =>
  match a, b with
  | .error e1, .error e2 =>
    if h : e1 = e2 then .isTrue (congrArg Except.error h)
    else .isFalse fun hc => h (Except.error.inj hc)
  | .ok v1, .ok v2 =>
    if h : v1 = v2 then .isTrue (congrArg Except.ok h)
    else .isFalse fun hc => h (Except.ok.inj hc)
  | .error _, .ok _ => .isFalse fun hc => Except.noConfusion hc
  | .ok _, .error _ => .isFalse fun hc => Except.noConfusion hc

/-- The forecast model: the ordered feature columns (temporal offset and
feature name, in the column order established by `Forecast.load_model`)
and the opaque per-pixel-row predictor of the XGBoost booster. -/
structure Model where
  columns : List (Int × String)
  predict : List Val → Val

/-- `Forecast.history` (forecast.py lines 171–181): fold the columns,
keeping the most negative offset seen, starting from `0`; return its
negation.  The result is non-negative, so it is returned as `Nat`. -/
def Model.history (M : Model) : Nat :=
  (-(M.columns.foldl (fun n c => if c.1 < n then c.1 else n) 0)).toNat

/-- The feature dictionary of `Forecast.forecast` (forecast.py lines
116–122 and 131–136): a Python dict comprehension over `zip(names,
feats)`, so `zip` truncates to the shorter list and on duplicate names
the last binding wins — hence the lookup on the reversed association
list. -/
def featDict (names : List String) (feats : List Arr) : String → Option Arr :=
  fun n => ((names.zip feats).reverse).lookup n

/-- The feature dictionary as `Forecast.fc` sees it after the current
chlorophyll state `y` has been written in place: `f[VID_CHL]` is the
(mutated) chlorophyll array `y`, everything else is read through the
original dictionary. -/
def withChl (f : String → Option Arr) (y : Arr) : String → Option Arr :=
  fun n => if n = VID_CHL then some y else f n

/-- The column slices of `Forecast.table` (forecast.py lines 210–215):
for each feature column `(t, name)` in model column order, the day slice
`f[name][t - h, :, :]` (already pixel-flattened in this model, matching
`np.ravel`).  A missing feature name is a `KeyError`; a day index out of
range is an `IndexError`. -/
def tableCols (M : Model) (f : String → Option Arr) (h : Nat) :
    Except Err (List Grid) :=
  M.columns.mapM fun c =>
    match f c.2 with
    | none => .error (.keyError c.2)
    | some a =>
      match pyGet a (c.1 - (h : Int)) with
      | none => .error .indexError
      | some g => .ok g

/-- `np.stack(cols)` followed by the transposition `x.T` of
`Forecast.table`: requires a non-empty list of equal-length columns
(otherwise `np.stack` raises), and yields one row of predictor values
per pixel, columns in model order. -/
def tableT (cols : List Grid) : Except Err (List (List Val)) :=
  match cols with
  | [] => .error .stackError
  | g :: gs =>
    if gs.all fun g2 => g2.length = g.length then
      .ok ((List.range g.length).map fun p => (g :: gs).map fun c => c.getD p .nan)
    else .error .stackError

/-- `Forecast._predict` (forecast.py lines 158–167) applied to every
pixel row of the prediction table: the model's raw prediction with
negative values clipped to zero by `np.maximum(0.0, ·)`. -/
def predictRows (M : Model) (rows : List (List Val)) : Grid :=
  rows.map fun r => (M.predict r).max0

/-- The recursive step loop of `Forecast.fc` (forecast.py lines
151–153): for `h` counting down from the horizon to `1`, build the
prediction table from the current feature state (the chlorophyll entry
is the loop-carried, already partially overwritten array `y`), predict,
clip, and write the result into `y[-h, :, :]` before the next
iteration. -/
def fcLoop (M : Model) (f : String → Option Arr) : Nat → Arr → Except Err Arr
  | 0, y => .ok y
  | h + 1, y =>
    match tableCols M (withChl f y) (h + 1) with
    | .error e => .error e
    | .ok cols =>
      match tableT cols with
      | .error e => .error e
      | .ok rows =>
        match pySet y (-((h : Int) + 1)) (predictRows M rows) with
        | none => .error .indexError
        | some y2 => fcLoop M f h y2

/-- The post-loop nullification `y[~np.isfinite(z)] = self.nan` of
`Forecast.fc` (forecast.py line 154): every position where the nitrate
array `z` is non-finite is forced to NaN (`BlockAlgorithm.nan` is the
NaN sentinel of the single-precision output dtype).  The mask has the
shape of `z`; the source applies it to the same-shaped `y`. -/
def nullify (y z : Arr) : Arr :=
  y.zipWith (fun yd zd => yd.zipWith (fun a b => if b.isFinite then a else Val.nan) zd) z

/-- `Forecast.fc` (forecast.py lines 140–156): look up the chlorophyll
and nitrate arrays, run the recursive step loop, nullify where nitrate
is non-finite, and return the final `H` days `y[-H:, :, :]`. -/
def fc (M : Model) (H : Nat) (f : String → Option Arr) : Except Err Arr :=
  match f VID_CHL with
  | none => .error (.keyError VID_CHL)
  | some y0 =>
    match f VID_NO3 with
    | none => .error (.keyError VID_NO3)
    | some z =>
      match fcLoop M f H y0 with
      | .error e => .error e
      | .ok y => .ok (pySliceLast H (nullify y z))

/-- `Forecast.forecast` (forecast.py lines 108–138).  Non-test mode
builds the feature dictionary (the chlorophyll entry is a fresh copy —
value-identical here; aliasing is treated by `forecastST`) and runs
`fc`.  Test mode allocates `d - history - horizon + 1` output days
(`np.empty` raises `ValueError` when that count is negative, and
`feats[0]` raises `IndexError` when no features are supplied), then
slides a window of length `history + horizon` across the input with
stride 1, keeping the last forecast day `fc(f)[-1, :, :]` of each
window. -/
def forecast (M : Model) (H : Nat) (test : Bool) (names : List String)
    (feats : List Arr) : Except Err Arr :=
  if !test then fc M H (featDict names feats)
  else
    match feats with
    | [] => .error .indexError
    | f0 :: _ =>
      let n := M.history
      let d := f0.length
      let m : Int := (d : Int) - (n : Int) - (H : Int) + 1
      if m < 0 then .error .valueError
      else
        (List.range m.toNat).mapM fun t =>
          match fc M H (featDict names (feats.map fun a => pySlice a t (t + n + H))) with
          | .error e => .error e
          | .ok out =>
            match pyGet out (-1) with
            | none => .error .indexError
            | some g => .ok g

/-- `Forecast.created_axes` (forecast.py lines 98–101). -/
def Forecast.createdAxes : List Nat := [0]

/-- `Forecast.dropped_axes` (forecast.py lines 103–106). -/
def Forecast.droppedAxes : List Nat := [0]

/-- Python `s.split(sep, maxsplit=1)` over the character list: `none`
when the separator does not occur (a one-element split, so the splat
into the two-argument `intstr` is a `TypeError`), otherwise the part
before the first separator and everything after it. -/
def splitFirstChars (sep : Char) : List Char → Option (List Char × List Char)
  | [] => none
  | c :: cs =>
    if c = sep then some ([], cs)
    else (splitFirstChars sep cs).map fun p => (c :: p.1, p.2)

/-- Python `int(str)` for the decimal literals appearing in feature
names: an optional leading minus sign followed by at least one digit
(`ValueError` — `none` — otherwise; the model never writes the
whitespace or `+` forms `int` would also accept). -/
def parseNatChars (cs : List Char) : Option Nat :=
  if cs.isEmpty then none
  else cs.foldl (fun acc c => acc.bind fun n =>
    if c.isDigit then some (n * 10 + (c.toNat - 48)) else none) (some 0)

def parseIntChars : List Char → Option Int
  | '-' :: rest => (parseNatChars rest).map fun n => -(n : Int)
  | cs => (parseNatChars cs).map fun n => (n : Int)

/-- The per-feature-name parsing of `Forecast.load_model` (forecast.py
lines 200–207, with `intstr` from lines 218–220): a name starting with
`t-` is `t<offset>_<feature>`, handled with `removeprefix("t")` (which
leaves `-<offset>_<feature>`) and `split("_", maxsplit=1)`; any other
name is a same-day column `(0, name)`. -/
def parseFeature (name : String) : Option (Int × String) :=
  match name.toList with
  | 't' :: '-' :: rest =>
    match splitFirstChars '_' ('-' :: rest) with
    | none => none
    | some p => (parseIntChars p.1).map fun k => (k, String.mk p.2)
  | _ => some (0, name)

/-- The feature columns produced by `Forecast.load_model` from the
booster's declared feature names: one parsed column per name, in
declaration order (`sorted(columns.items())` sorts on the `enumerate`
index, which restores exactly the declaration order). -/
def loadColumns (names : List String) : Option (List (Int × String)) :=
  names.mapM parseFeature

/-! ## Store semantics of `Forecast.forecast`

The functional embedding above treats arrays as values.  The source,
however, mutates numpy buffers: `feat.astype(dtype, copy=name == VID_CHL)`
makes a fresh buffer only for the chlorophyll entry (and `feat[t : t+n+h]`
is a *view* of the caller's buffer, so in the worst case every non-chl
entry of the feature dict aliases caller memory), and `fc` writes through
`f[VID_CHL]`.  To reason about what the call does to the caller's arrays,
this section re-expresses the same algorithm over an explicit store: the
caller's arrays live in `store : List Arr`, the fresh chlorophyll copy in
`lc : Arr`, and the feature dict maps names to references — either a view
of a caller array (`callerView i off len`, the array at store index `i`
restricted to days `[off, off+len)`) or the local copy (`localChl`).
Reads and writes go through the references, so a write through a
`callerView` *would* mutate the store. -/

/-- A reference held by the feature dictionary. -/
inductive Ref where
  | callerView (i off len : Nat)
  | localChl
deriving DecidableEq, Repr

/-- Read the array a reference denotes. -/
def deref (store : List Arr) (lc : Arr) : Ref → Option Arr
  | .callerView i off len => (store.get? i).map fun a => pySlice a off (off + len)
  | .localChl => some lc

/-- `y[i, :, :] = g` through a reference: a write to a caller view lands
in the backing store array at the view's offset. -/
def writeRefDay (store : List Arr) (lc : Arr) (r : Ref) (i : Int) (g : Grid) :
    Option (List Arr × Arr) :=
  match r with
  | .localChl => (pySet lc i g).map fun lc2 => (store, lc2)
  | .callerView j off len =>
    match store.get? j with
    | none => none
    | some a => (pyIdx len i).map fun k => (store.set j (a.set (off + k) g), lc)

/-- Replace the whole region a reference denotes (the masked assignment
`y[~np.isfinite(z)] = nan` rewrites the referenced buffer in place). -/
def writeRegion (store : List Arr) (lc : Arr) (r : Ref) (new : Arr) :
    Option (List Arr × Arr) :=
  match r with
  | .localChl => some (store, new)
  | .callerView j off len =>
    (store.get? j).map fun a =>
      (store.set j (a.take off ++ new ++ a.drop (off + len)), lc)

/-- The step loop of `Forecast.fc` over the explicit store: identical to
`fcLoop` except that the feature dictionary holds references. -/
def fcSTLoop (M : Model) (refs : String → Option Ref) :
    Nat → List Arr → Arr → Except Err (List Arr × Arr)
  | 0, store, lc => .ok (store, lc)
  | h + 1, store, lc =>
    match M.columns.mapM fun c =>
      match refs c.2 with
      | none => Except.error (Err.keyError c.2)
      | some r =>
        match deref store lc r with
        | none => Except.error Err.indexError
        | some a =>
          match pyGet a (c.1 - ((h : Int) + 1)) with
          | none => Except.error Err.indexError
          | some g => Except.ok g with
    | .error e => .error e
    | .ok cols =>
      match tableT cols with
      | .error e => .error e
      | .ok rows =>
        match refs VID_CHL with
        | none => .error (.keyError VID_CHL)
        | some r =>
          match writeRefDay store lc r (-((h : Int) + 1)) (predictRows M rows) with
          | none => .error .indexError
          | some p => fcSTLoop M refs h p.1 p.2

/-- `Forecast.fc` over the explicit store.  The chlorophyll and nitrate
entries are looked up first (as in the source); `y` and `z` are Python
*objects*, so their content is read through the references after the
loop has mutated the store/local copy. -/
def fcST (M : Model) (H : Nat) (refs : String → Option Ref)
    (store : List Arr) (lc : Arr) : Except Err (Arr × List Arr × Arr) :=
  match refs VID_CHL with
  | none => .error (.keyError VID_CHL)
  | some rchl =>
    match refs VID_NO3 with
    | none => .error (.keyError VID_NO3)
    | some rno3 =>
      match fcSTLoop M refs H store lc with
      | .error e => .error e
      | .ok p =>
        match deref p.1 p.2 rchl with
        | none => .error .indexError
        | some y =>
          match deref p.1 p.2 rno3 with
          | none => .error .indexError
          | some z =>
            match writeRegion p.1 p.2 rchl (nullify y z) with
            | none => .error .indexError
            | some q => .ok (pySliceLast H (nullify y z), q.1, q.2)

/-- The reference the feature dictionary of `Forecast.forecast` holds for
the `zip(names, feats)` entry `p = (i, (name, feat))`: the chlorophyll
entry is the fresh local copy (`astype(..., copy=True)`); every other
entry is a view of the caller's array at store index `i` — the whole
array in non-test mode (`window = none`), the
`[t, t + history + horizon)` day window in test mode. -/
def refOf (window : Option (Nat × Nat)) (p : Nat × (String × Arr)) : Ref :=
  if p.2.1 = VID_CHL then .localChl
  else
    match window with
    | none => .callerView p.1 0 p.2.2.length
    | some tw => .callerView p.1 tw.1 tw.2

/-- The reference dictionary `Forecast.forecast` builds: the same Python
dict comprehension as `featDict` (last binding wins), but recording
what each entry *aliases* instead of its value. -/
def refDict (names : List String) (feats : List Arr) (window : Option (Nat × Nat)) :
    String → Option Ref :=
  fun name =>
    (((names.zip feats).enum.map fun p => (p.2.1, refOf window p)).reverse).lookup name

/-- The test-mode window loop of `Forecast.forecast` over the explicit
store: each window re-reads the caller's arrays as they are *after* the
previous window ran (they are the same Python objects), and makes a
fresh local copy of the chlorophyll window slice. -/
def testLoopST (M : Model) (H n : Nat) (names : List String) :
    List Nat → List Arr → Except Err (Arr × List Arr)
  | [], store => .ok ([], store)
  | t :: ts, store =>
    match fcST M H (refDict names store (some (t, n + H))) store
        (((featDict names store VID_CHL).map fun a => pySlice a t (t + n + H)).getD []) with
    | .error e => .error e
    | .ok r =>
      match pyGet r.1 (-1) with
      | none => .error .indexError
      | some g =>
        match testLoopST M H n names ts r.2.1 with
        | .error e => .error e
        | .ok rest => .ok (g :: rest.1, rest.2)

/-- `Forecast.forecast` over the explicit store: returns the result
array together with the caller's arrays as they are after the call. -/
def forecastST (M : Model) (H : Nat) (test : Bool) (names : List String)
    (feats : List Arr) : Except Err (Arr × List Arr) :=
  if !test then
    let refs := refDict names feats none
    let lc := (featDict names feats VID_CHL).getD []
    (fcST M H refs feats lc).map fun r => (r.1, r.2.1)
  else
    match feats with
    | [] => .error .indexError
    | f0 :: _ =>
      let n := M.history
      let d := f0.length
      let m : Int := (d : Int) - (n : Int) - (H : Int) + 1
      if m < 0 then .error .valueError
      else testLoopST M H n names (List.range m.toNat) feats

/-! ## The dataset builder (`src/wqf/datasetbuilder.py`)

Only the state and operations the claims are about are embedded: the
dimension/shape/chunk bookkeeping and array binding (`add_dim`,
`add_var`, `add_array`, `_add_array`).  Global attributes, `add_full`
and `build()` play no role in the claims.  The source signals violations
with `assert` statements (Python `AssertionError`); the specification's
error taxonomy calls these `BuilderConsistencyError`.  Indexing
`array.shape[i]` past the array's rank raises `IndexError`. -/

/-- What the builder needs to know about a bound array: its shape, its
per-axis chunk size, and whether it is a Dask array (`_add_array` does
chunk bookkeeping only for `isinstance(array, Array)`). -/
structure DArray where
  shape : List Nat
  chunksize : List Nat
  isDask : Bool
deriving DecidableEq, Repr

/-- Failures of the builder operations. -/
inductive BuilderError where
  | assertionError (msg : String)
  | indexError
deriving DecidableEq, Repr

/-- Python dict assignment `d[k] = v` on an association list: replace
the existing binding, else append. -/
def dset {β : Type} (l : List (String × β)) (k : String) (v : β) :
    List (String × β) :=
  if (l.lookup k).isSome then l.map fun p => if p.1 = k then (k, v) else p
  else l ++ [(k, v)]

/-- The `DatasetBuilder` state (datasetbuilder.py lines 20–37); the
attribute dictionary is omitted (irrelevant to the claims). -/
structure Builder where
  arrayDict : List (String × DArray)
  dimidDict : List (String × List String)
  shapeDict : List (String × Nat)
  chunkDict : List (String × Nat)
deriving DecidableEq, Repr

/-- The empty builder (`DatasetBuilder.__init__`). -/
def Builder.empty : Builder := ⟨[], [], [], []⟩

/-- `DatasetBuilder.add_dim` (datasetbuilder.py lines 124–139): fails if
the dimension is already defined; records the size, and the chunk size
(`chunk = none` models the Python default `-1`, meaning "chunk = whole
dimension"). -/
def Builder.addDim (b : Builder) (did : String) (shape : Nat)
    (chunk : Option Nat) : Except BuilderError Builder :=
  if (b.shapeDict.lookup did).isSome then
    .error (.assertionError ("Dimension ID " ++ did ++ " is already defined"))
  else
    let b2 := { b with shapeDict := dset b.shapeDict did shape }
    match chunk with
    | none => .ok { b2 with chunkDict := dset b2.chunkDict did shape }
    | some c => .ok { b2 with chunkDict := dset b2.chunkDict did c }

/-- `DatasetBuilder.add_var` (datasetbuilder.py lines 106–122): fails if
the variable already has dimensions or an array, or if any referenced
dimension is undefined (first offender, as the source's loop of
asserts); otherwise records the dimension tuple. -/
def Builder.addVar (b : Builder) (vid : String) (did : List String) :
    Except BuilderError Builder :=
  if (b.dimidDict.lookup vid).isSome then
    .error (.assertionError ("Variable ID " ++ vid ++ " is already associated with dimensions"))
  else if (b.arrayDict.lookup vid).isSome then
    .error (.assertionError ("Variable ID " ++ vid ++ " is already associated with an array"))
  else
    match did.find? fun d => (b.shapeDict.lookup d).isNone with
    | some d => .error (.assertionError ("Dimension ID " ++ d ++ " is not defined in " ++ vid))
    | none => .ok { b with dimidDict := dset b.dimidDict vid did }

/-- One axis of the `_add_array` loop (datasetbuilder.py lines 68–79):
`shape = array.shape[i]`; an already-recorded dimension size must match
exactly, a fresh dimension records the array's size; for Dask arrays the
recorded chunk size is lowered to `array.chunksize[i]` when that is
strictly smaller (or recorded outright when absent). -/
def Builder.chunkStep (array : DArray) (b2 : Builder) (i : Nat) (d : String) :
    Except BuilderError Builder :=
  if array.isDask then
    match array.chunksize.get? i with
    | none => .error .indexError
    | some chunk =>
      match b2.chunkDict.lookup d with
      | some c =>
        if chunk < c then .ok { b2 with chunkDict := dset b2.chunkDict d chunk }
        else .ok b2
      | none => .ok { b2 with chunkDict := dset b2.chunkDict d chunk }
  else
    .ok b2

def Builder.axisStep (vid : String) (array : DArray) (b : Builder)
    (i : Nat) (d : String) : Except BuilderError Builder :=
  match array.shape.get? i with
  | none => .error .indexError
  | some shape =>
    match b.shapeDict.lookup d with
    | some s =>
      if shape = s then Builder.chunkStep array b i d
      else .error (.assertionError ("Invalid array shape for variable " ++ vid))
    | none => Builder.chunkStep array { b with shapeDict := dset b.shapeDict d shape } i d

/-- The `for i, d in enumerate(self._dimid_dict[vid])` loop of
`DatasetBuilder._add_array`, one `axisStep` per `(i, d)` pair, stopping
at the first failed assertion. -/
def Builder.addAxes (vid : String) (array : DArray) :
    Builder → List (Nat × String) → Except BuilderError Builder
  | b, [] => .ok b
  | b, p :: L =>
    match Builder.axisStep vid array b p.1 p.2 with
    | .error e => .error e
    | .ok b2 => Builder.addAxes vid array b2 L

/-- `DatasetBuilder._add_array` (datasetbuilder.py lines 63–81): the
variable must have declared dimensions; then the per-axis loop over
`enumerate(dims)`, then the array is recorded. -/
def Builder.addArrayCore (b : Builder) (vid : String) (array : DArray) :
    Except BuilderError Builder :=
  match b.dimidDict.lookup vid with
  | none =>
    .error (.assertionError ("Variable ID " ++ vid ++ " is not associated with dimensions"))
  | some dims =>
    match Builder.addAxes vid array b dims.enum with
    | .error e => .error e
    | .ok b2 => .ok { b2 with arrayDict := dset b2.arrayDict vid array }

/-- `DatasetBuilder.add_array` (datasetbuilder.py lines 50–61): fails if
the variable already has an array, else defers to `_add_array`. -/
def Builder.addArray (b : Builder) (vid : String) (array : DArray) :
    Except BuilderError Builder :=
  if (b.arrayDict.lookup vid).isSome then
    .error (.assertionError ("Variable ID " ++ vid ++ " is already associated with an array"))
  else b.addArrayCore vid array

/-- A rectangular spatial shape: every day slice has `npix` pixels. -/
def Uniform (npix : Nat) (a : Arr) : Prop := ∀ g ∈ a, g.length = npix

instance Uniform.decidable (npix : Nat) (a : Arr) : Decidable (Uniform npix a) :=
  decidable_of_iff (∀ g ∈ a, g.length = npix) Iff.rfl

/-! ## Basic lemmas -/

theorem lookup_mem {β : Type} {l : List (String × β)} {k : String} {v : β}
    (h : l.lookup k = some v) : (k, v) ∈ l := by
  induction l with
  | nil => simp [List.lookup] at h
  | cons p l ih =>
    rw [List.lookup] at h
    by_cases hk : k = p.1
    · subst hk
      simp at h
      subst h
      exact List.mem_cons_self _ _
    · have : (k == p.1) = false := by simpa using hk
      rw [this] at h
      exact List.mem_cons_of_mem _ (ih h)

theorem lookup_isSome {β : Type} {l : List (String × β)} {k : String}
    (h : k ∈ l.map Prod.fst) : (l.lookup k).isSome := by
  induction l with
  | nil => simp at h
  | cons p l ih =>
    rw [List.lookup]
    by_cases hk : k = p.1
    · simp [hk]
    · have hb : (k == p.1) = false := by simpa using hk
      rw [hb]
      refine ih ?_
      simp at h
      rcases h with h | h
      · exact absurd h hk
      · simpa using h

theorem featDict_mem {names : List String} {feats : List Arr} {name : String}
    (hmem : name ∈ names) (hlen : names.length ≤ feats.length) :
    ∃ a, featDict names feats name = some a ∧ a ∈ feats := by
  have hkeys : name ∈ ((names.zip feats).reverse).map Prod.fst := by
    rw [List.map_reverse, List.mem_reverse, List.map_fst_zip _ _ hlen]
    exact hmem
  have hsome := lookup_isSome (l := (names.zip feats).reverse) hkeys
  rcases Option.isSome_iff_exists.mp hsome with ⟨a, ha⟩
  refine ⟨a, ha, ?_⟩
  have := lookup_mem ha
  rw [List.mem_reverse] at this
  exact List.of_mem_zip this |>.2

theorem zipWith_get? {α β γ : Type} (f : α → β → γ) (a : List α) (b : List β)
    (j : Nat) :
    (List.zipWith f a b).get? j =
      (a.get? j).bind fun x => (b.get? j).map fun y => f x y := by
  induction a generalizing b j with
  | nil => simp
  | cons x a ih =>
    cases b with
    | nil => simp
    | cons y b =>
      cases j with
      | zero => simp
      | succ j => simpa using ih b j

theorem nullify_get? (y z : Arr) (j : Nat) :
    (nullify y z).get? j = (y.get? j).bind fun yd => (z.get? j).map fun zd =>
      yd.zipWith (fun a b => if b.isFinite then a else Val.nan) zd :=
  zipWith_get? _ y z j

theorem nullify_length (y z : Arr) : (nullify y z).length = min y.length z.length :=
  List.length_zipWith _ y z

theorem pyIdx_neg {len h : Nat} (h1 : 1 ≤ h) (h2 : h ≤ len) :
    pyIdx len (-(h : Int)) = some (len - h) := by
  unfold pyIdx
  rw [if_pos (by omega : -(h : Int) < 0)]
  rw [if_neg (by omega : ¬ ((len : Int) + -(h : Int) < 0))]
  congr 1
  omega

theorem pyIdx_negI {len : Nat} {i : Int} (h1 : i < 0) (h2 : 0 ≤ (len : Int) + i) :
    pyIdx len i = some ((len : Int) + i).toNat := by
  unfold pyIdx
  rw [if_pos h1, if_neg (by omega : ¬ ((len : Int) + i < 0))]

theorem pyIdx_neg_none {len : Nat} {i : Int} (h1 : i < 0) (h2 : (len : Int) + i < 0) :
    pyIdx len i = none := by
  unfold pyIdx
  rw [if_pos h1, if_pos h2]

theorem pyGet_some {a : Arr} {i : Int} (h1 : i < 0) (h2 : 0 ≤ (a.length : Int) + i) :
    a.get? ((a.length : Int) + i).toNat = pyGet a i := by
  unfold pyGet
  rw [pyIdx_negI h1 h2]
  rfl

theorem mapM_ok_of {α β ε : Type} {l : List α} {F : α → Except ε β} (P : β → Prop)
    (h : ∀ a ∈ l, ∃ b, F a = .ok b ∧ P b) :
    ∃ bs, l.mapM F = .ok bs ∧ bs.length = l.length ∧ ∀ b ∈ bs, P b := by
  induction l with
  | nil => exact ⟨[], rfl, rfl, by simp⟩
  | cons a l ih =>
    rcases h a (by simp) with ⟨b, hb, hPb⟩
    rcases ih (fun a2 ha2 => h a2 (by simp [ha2])) with ⟨bs, hbs, hlen, hP⟩
    refine ⟨b :: bs, ?_, by simp [hlen], ?_⟩
    · rw [List.mapM_cons, hb, hbs]; rfl
    · intro b2 hb2
      rcases List.mem_cons.mp hb2 with h2 | h2
      · exact h2 ▸ hPb
      · exact hP _ h2

theorem mapM_error_of {α β ε : Type} {l : List α} {F : α → Except ε β} {e : ε}
    (hall : ∀ a ∈ l, (∃ b, F a = .ok b) ∨ F a = .error e)
    (hex : ∃ a ∈ l, F a = .error e) :
    l.mapM F = .error e := by
  induction l with
  | nil => simp at hex
  | cons a l ih =>
    rcases hall a (by simp) with ⟨b, hb⟩ | hb
    · have hex2 : ∃ a2 ∈ l, F a2 = .error e := by
        rcases hex with ⟨a2, ha2, he2⟩
        rcases List.mem_cons.mp ha2 with h2 | h2
        · subst h2; rw [hb] at he2; exact absurd he2 (by simp)
        · exact ⟨a2, h2, he2⟩
      have := ih (fun a2 ha2 => hall a2 (by simp [ha2])) hex2
      rw [List.mapM_cons, hb, this]
      rfl
    · rw [List.mapM_cons, hb]
      rfl

theorem predictRows_length (M : Model) (rows : List (List Val)) :
    (predictRows M rows).length = rows.length := by
  simp [predictRows]

theorem tableT_ok {cols : List Grid} {npix : Nat} (hne : cols ≠ [])
    (hu : ∀ g ∈ cols, g.length = npix) :
    tableT cols = .ok ((List.range npix).map fun p => cols.map fun c => c.getD p .nan) := by
  cases cols with
  | nil => exact absurd rfl hne
  | cons g gs =>
    have hg : g.length = npix := hu g (by simp)
    have hc : (gs.all fun g2 => g2.length = g.length) = true := by
      simp only [List.all_eq_true, decide_eq_true_eq]
      intro g2 hg2
      rw [hu g2 (List.mem_cons_of_mem _ hg2), hg]
    simp only [tableT]
    rw [if_pos hc, hg]

theorem pySet_neg {y : Arr} {h : Nat} (h1 : 1 ≤ h) (h2 : h ≤ y.length) (g : Grid) :
    pySet y (-(h : Int)) g = some (y.set (y.length - h) g) := by
  unfold pySet
  rw [pyIdx_neg h1 h2]
  rfl

theorem tableCols_ok {M : Model} {f : String → Option Arr} {npix d h : Nat}
    (hone : 1 ≤ h)
    (hoff : ∀ c ∈ M.columns, c.1 ≤ 0)
    (hidx : ∀ c ∈ M.columns, (0 : Int) ≤ (d : Int) + c.1 - h)
    (hfeat : ∀ c ∈ M.columns, ∃ a, f c.2 = some a ∧ a.length = d ∧ Uniform npix a) :
    ∃ cols, tableCols M f h = .ok cols ∧
      cols.length = M.columns.length ∧ ∀ g ∈ cols, g.length = npix := by
  apply mapM_ok_of (fun g : Grid => g.length = npix)
  intro c hc
  rcases hfeat c hc with ⟨a, ha, hal, hau⟩
  have hi1 : c.1 - (h : Int) < 0 := by have := hoff c hc; omega
  have hi2 : 0 ≤ (a.length : Int) + (c.1 - (h : Int)) := by
    have := hidx c hc
    omega
  have hlt : ((a.length : Int) + (c.1 - (h : Int))).toNat < a.length := by omega
  have hget : pyGet a (c.1 - (h : Int)) = some (a.get ⟨_, hlt⟩) := by
    rw [← pyGet_some hi1 hi2]
    exact List.get?_eq_get hlt
  refine ⟨a.get ⟨_, hlt⟩, ?_, hau _ (a.get_mem _ _)⟩
  simp only [ha, hget]

theorem get?_set_of_ne {α : Type} (l : List α) (i j : Nat) (a : α) (h : i ≠ j) :
    (l.set i a).get? j = l.get? j := by
  rw [List.get?_eq_getElem?, List.get?_eq_getElem?]
  exact List.getElem?_set_ne h

theorem get?_set_self_of_lt {α : Type} (l : List α) (i : Nat) (a : α) (h : i < l.length) :
    (l.set i a).get? i = some a := by
  rw [List.get?_eq_getElem?]
  exact List.getElem?_set_eq_of_lt a h

theorem fcLoop_spec (M : Model) (f : String → Option Arr) (npix d : Nat)
    (hcne : M.columns ≠ [])
    (hoff : ∀ c ∈ M.columns, c.1 ≤ 0)
    (hfeat : ∀ c ∈ M.columns, c.2 = VID_CHL ∨
      ∃ a, f c.2 = some a ∧ a.length = d ∧ Uniform npix a) :
    ∀ h y, h ≤ d →
      (∀ c ∈ M.columns, (0 : Int) ≤ (d : Int) + c.1 - h) →
      y.length = d → Uniform npix y →
      ∃ y2, fcLoop M f h y = .ok y2 ∧ y2.length = d ∧ Uniform npix y2 ∧
        (∀ j, j + h < d → y2.get? j = y.get? j) ∧
        (∀ j, d - h ≤ j → j < d → ∃ rows, y2.get? j = some (predictRows M rows)) := by
  intro h
  induction h with
  | zero =>
    intro y _ _ hylen hyu
    exact ⟨y, rfl, hylen, hyu, fun j _ => rfl, fun j hj1 hj2 => absurd hj2 (by omega)⟩
  | succ h ih =>
    intro y hh hidx hylen hyu
    have hfeat2 : ∀ c ∈ M.columns, ∃ a, withChl f y c.2 = some a ∧
        a.length = d ∧ Uniform npix a := by
      intro c hc
      by_cases hchl : c.2 = VID_CHL
      · exact ⟨y, by simp [withChl, hchl], hylen, hyu⟩
      · rcases hfeat c hc with h1 | ⟨a, ha, hal, hau⟩
        · exact absurd h1 hchl
        · exact ⟨a, by simp [withChl, hchl, ha], hal, hau⟩
    rcases tableCols_ok (h := h + 1) (by omega) hoff (by
        intro c hc
        have := hidx c hc
        push_cast at this ⊢
        omega) hfeat2 with ⟨cols, hcols, hclen, hcu⟩
    have hcolsne : cols ≠ [] := by
      intro h0
      rw [h0] at hclen
      exact hcne (List.length_eq_zero.mp hclen.symm)
    have htab := tableT_ok hcolsne hcu
    have hglen : (predictRows M ((List.range npix).map fun p =>
        cols.map fun c => c.getD p Val.nan)).length = npix := by
      rw [predictRows_length, List.length_map, List.length_range]
    have hset : pySet y (-((h : Int) + 1)) (predictRows M ((List.range npix).map fun p =>
        cols.map fun c => c.getD p Val.nan)) = some (y.set (y.length - (h + 1))
          (predictRows M ((List.range npix).map fun p => cols.map fun c => c.getD p Val.nan))) := by
      rw [show -((h : Int) + 1) = -(((h + 1 : Nat) : Int)) by push_cast; ring]
      exact pySet_neg (by omega) (by omega) _
    set g2 := predictRows M ((List.range npix).map fun p => cols.map fun c => c.getD p Val.nan)
      with hg2
    set y2 := y.set (y.length - (h + 1)) g2 with hy2
    have hy2len : y2.length = d := by rw [hy2, List.length_set, hylen]
    have hy2u : Uniform npix y2 := by
      intro g hg
      rcases List.mem_or_eq_of_mem_set hg with h1 | h1
      · exact hyu g h1
      · rw [h1, hg2]
        exact hglen
    rcases ih y2 (by omega) (by
        intro c hc
        have := hidx c hc
        omega) hy2len hy2u with ⟨y3, hy3, hy3len, hy3u, hy3pres, hy3wr⟩
    refine ⟨y3, ?_, hy3len, hy3u, ?_, ?_⟩
    · simp only [fcLoop, hcols, htab, hset]
      exact hy3
    · intro j hj
      rw [hy3pres j (by omega), hy2]
      exact get?_set_of_ne _ _ _ _ (by omega)
    · intro j hj1 hj2
      by_cases hje : j = d - (h + 1)
      · refine ⟨(List.range npix).map fun p => cols.map fun c => c.getD p Val.nan, ?_⟩
        rw [hy3pres j (by omega), hy2, hje, hylen]
        rw [get?_set_self_of_lt _ _ _ (by omega)]
      · exact hy3wr j (by omega) hj2

theorem history_foldl_eq_min (l : List (Int × String)) (init : Int) :
    l.foldl (fun n c => if c.1 < n then c.1 else n) init =
      (l.map Prod.fst).foldl min init := by
  induction l generalizing init with
  | nil => rfl
  | cons c l ih =>
    simp only [List.foldl, List.map]
    rw [ih]
    congr 1
    rcases lt_or_le c.1 init with h | h
    · rw [if_pos h, min_eq_right h.le]
    · rw [if_neg (not_lt.mpr h), min_eq_left h]

theorem foldl_min_le_init (l : List Int) (init : Int) : l.foldl min init ≤ init := by
  induction l generalizing init with
  | nil => exact le_refl _
  | cons a l ih => exact le_trans (ih (min init a)) (min_le_left _ _)

theorem foldl_min_le_mem (l : List Int) (init : Int) {x : Int} (hx : x ∈ l) :
    l.foldl min init ≤ x := by
  induction l generalizing init with
  | nil => simp at hx
  | cons a l ih =>
    rcases List.mem_cons.mp hx with h | h
    · subst h
      exact le_trans (foldl_min_le_init l (min init x)) (min_le_right _ _)
    · exact ih (min init a) h

theorem foldl_min_attained (l : List Int) (init : Int) :
    l.foldl min init = init ∨ l.foldl min init ∈ l := by
  induction l generalizing init with
  | nil => exact Or.inl rfl
  | cons a l ih =>
    rcases ih (min init a) with h | h
    · rcases min_choice init a with h2 | h2
      · exact Or.inl (by rw [List.foldl, h, h2])
      · exact Or.inr (by rw [List.foldl, h, h2]; simp)
    · exact Or.inr (by simp [List.foldl]; right; simpa using h)

theorem history_eq_neg_foldl (M : Model) :
    (M.history : Int) = -((M.columns.map Prod.fst).foldl min 0) := by
  unfold Model.history
  rw [history_foldl_eq_min]
  rw [Int.toNat_of_nonneg]
  have := foldl_min_le_init (M.columns.map Prod.fst) 0
  omega

theorem offset_ge_neg_history (M : Model) {c : Int × String} (hc : c ∈ M.columns) :
    -(M.history : Int) ≤ c.1 := by
  have h1 := foldl_min_le_mem (M.columns.map Prod.fst) 0
    (List.mem_map_of_mem Prod.fst hc)
  have h2 := history_eq_neg_foldl M
  omega

theorem exists_min_offset_col (M : Model) (hcne : M.columns ≠ [])
    (hoff : ∀ c ∈ M.columns, c.1 ≤ 0) :
    ∃ c ∈ M.columns, c.1 ≤ -(M.history : Int) := by
  have h2 := history_eq_neg_foldl M
  rcases foldl_min_attained (M.columns.map Prod.fst) 0 with h | h
  · rcases List.exists_mem_of_ne_nil M.columns hcne with ⟨c, hc⟩
    refine ⟨c, hc, ?_⟩
    have := hoff c hc
    omega
  · rcases List.mem_map.mp h with ⟨c, hc, hceq⟩
    exact ⟨c, hc, by omega⟩

theorem fc_ok (M : Model) (f : String → Option Arr) (npix d H : Nat)
    (hcne : M.columns ≠ [])
    (hoff : ∀ c ∈ M.columns, c.1 ≤ 0)
    (hfeat : ∀ c ∈ M.columns, c.2 = VID_CHL ∨
      ∃ a, f c.2 = some a ∧ a.length = d ∧ Uniform npix a)
    (hy0 : ∃ y0, f VID_CHL = some y0 ∧ y0.length = d ∧ Uniform npix y0)
    (hz : ∃ z, f VID_NO3 = some z ∧ z.length = d ∧ Uniform npix z)
    (hd : M.history + H ≤ d) :
    ∃ y2 z, f VID_NO3 = some z ∧ z.length = d ∧ Uniform npix z ∧
      fc M H f = .ok (pySliceLast H (nullify y2 z)) ∧
      y2.length = d ∧ Uniform npix y2 ∧
      (∀ j, d - H ≤ j → j < d → ∃ rows, y2.get? j = some (predictRows M rows)) := by
  rcases hy0 with ⟨y0, hy0e, hy0l, hy0u⟩
  rcases hz with ⟨z, hze, hzl, hzu⟩
  have hloop := fcLoop_spec M f npix d hcne hoff hfeat H y0 (by omega)
    (by
      intro c hc
      have h1 := offset_ge_neg_history M hc
      omega)
    hy0l hy0u
  rcases hloop with ⟨y2, hy2e, hy2l, hy2u, _, hy2wr⟩
  refine ⟨y2, z, hze, hzl, hzu, ?_, hy2l, hy2u, hy2wr⟩
  simp only [fc, hy0e, hze, hy2e]

theorem fc_err (M : Model) (f : String → Option Arr) (npix d H : Nat)
    (hoff : ∀ c ∈ M.columns, c.1 ≤ 0)
    (hcne : M.columns ≠ [])
    (hfeat : ∀ c ∈ M.columns, c.2 = VID_CHL ∨
      ∃ a, f c.2 = some a ∧ a.length = d ∧ Uniform npix a)
    (hy0 : ∃ y0, f VID_CHL = some y0 ∧ y0.length = d ∧ Uniform npix y0)
    (hz : ∃ z, f VID_NO3 = some z)
    (hH : 1 ≤ H) (hd : d < M.history + H) :
    fc M H f = .error .indexError := by
  rcases hy0 with ⟨y0, hy0e, hy0l, hy0u⟩
  rcases hz with ⟨z, hze⟩
  cases H with
  | zero => omega
  | succ h =>
    have hfeat2 : ∀ c ∈ M.columns, ∃ a, withChl f y0 c.2 = some a ∧ a.length = d := by
      intro c hc
      by_cases hchl : c.2 = VID_CHL
      · exact ⟨y0, by simp [withChl, hchl], hy0l⟩
      · rcases hfeat c hc with h1 | ⟨a, ha, hal, _⟩
        · exact absurd h1 hchl
        · exact ⟨a, by simp [withChl, hchl, ha], hal⟩
    have htc : tableCols M (withChl f y0) (h + 1) = .error .indexError := by
      apply mapM_error_of
      · intro c hc
        rcases hfeat2 c hc with ⟨a, ha, hal⟩
        cases hpg : pyGet a (c.1 - ((h + 1 : Nat) : Int)) with
        | none => exact Or.inr (by simp only [ha, hpg])
        | some g => exact Or.inl ⟨g, by simp only [ha, hpg]⟩
      · rcases exists_min_offset_col M hcne hoff with ⟨c, hc, hcmin⟩
        rcases hfeat2 c hc with ⟨a, ha, hal⟩
        refine ⟨c, hc, ?_⟩
        have hpg : pyGet a (c.1 - ((h + 1 : Nat) : Int)) = none := by
          unfold pyGet
          rw [pyIdx_neg_none (by omega) (by push_cast; omega)]
          rfl
        simp only [ha, hpg]
    simp only [fc, hy0e, hze, fcLoop, htc]

theorem mem_zipWith {α β γ : Type} {f : α → β → γ} {a : List α} {b : List β} {x : γ}
    (hx : x ∈ List.zipWith f a b) : ∃ u ∈ a, ∃ v ∈ b, x = f u v := by
  induction a generalizing b with
  | nil => simp at hx
  | cons u a ih =>
    cases b with
    | nil => simp at hx
    | cons v b =>
      rcases List.mem_cons.mp hx with h | h
      · exact ⟨u, by simp, v, by simp, h⟩
      · rcases ih h with ⟨u2, hu2, v2, hv2, hx2⟩
        exact ⟨u2, by simp [hu2], v2, by simp [hv2], hx2⟩

theorem nullify_uniform {npix : Nat} {y z : Arr} (hy : Uniform npix y)
    (hz : Uniform npix z) : Uniform npix (nullify y z) := by
  intro g hg
  rcases mem_zipWith hg with ⟨u, hu, v, hv, hguv⟩
  rw [hguv, List.length_zipWith, hy u hu, hz v hv, min_self]

theorem pySliceLast_length {H : Nat} {a : Arr} (h1 : 1 ≤ H) (h2 : H ≤ a.length) :
    (pySliceLast H a).length = H := by
  unfold pySliceLast
  rw [if_neg (by omega), List.length_drop]
  omega

theorem pySliceLast_mem {H : Nat} {a : Arr} {g : Grid} (hg : g ∈ pySliceLast H a) :
    g ∈ a := by
  unfold pySliceLast at hg
  by_cases h0 : H = 0
  · rw [if_pos h0] at hg
    exact hg
  · rw [if_neg h0] at hg
    exact List.mem_of_mem_drop hg

theorem pySliceLast_get? {H : Nat} {a : Arr} (h1 : 1 ≤ H) (j : Nat) :
    (pySliceLast H a).get? j = a.get? (a.length - H + j) := by
  unfold pySliceLast
  rw [if_neg (by omega), List.get?_drop]

theorem featDict_uniform {names : List String} {feats : List Arr} {npix d : Nat}
    (hlen : names.length = feats.length)
    (hfa : ∀ a ∈ feats, a.length = d ∧ Uniform npix a) {name : String}
    (hmem : name ∈ names) :
    ∃ a, featDict names feats name = some a ∧ a.length = d ∧ Uniform npix a := by
  rcases featDict_mem hmem (le_of_eq hlen) with ⟨a, ha, hmemf⟩
  exact ⟨a, ha, (hfa a hmemf).1, (hfa a hmemf).2⟩

/-- **C1** — For every non-test-mode invocation of the forecast on feature
arrays of `d` days (uniform spatial shape, a positive configured horizon,
the model's features all supplied): if `d ≥ history + horizon` the call
returns exactly `horizon` days with the spatial shape unchanged, and if
`d < history + horizon` it fails — with the day-index-out-of-range error
(the failure the specification's taxonomy names `InsufficientHistoryError`)
— rather than silently padding. -/
theorem forecast_horizon_days_or_insufficient (M : Model) (H npix d : Nat)
    (names : List String) (feats : List Arr)
    (hH : 1 ≤ H)
    (hlen : names.length = feats.length)
    (hfa : ∀ a ∈ feats, a.length = d ∧ Uniform npix a)
    (hchl : VID_CHL ∈ names) (hno3 : VID_NO3 ∈ names)
    (hcn : ∀ c ∈ M.columns, c.2 ∈ names)
    (hcne : M.columns ≠ []) (hoff : ∀ c ∈ M.columns, c.1 ≤ 0) :
    (M.history + H ≤ d →
      ∃ out, forecast M H false names feats = .ok out ∧
        out.length = H ∧ Uniform npix out) ∧
    (d < M.history + H →
      forecast M H false names feats = .error .indexError) := by
  have hfor : forecast M H false names feats = fc M H (featDict names feats) := rfl
  have hfeat : ∀ c ∈ M.columns, c.2 = VID_CHL ∨
      ∃ a, featDict names feats c.2 = some a ∧ a.length = d ∧ Uniform npix a :=
    fun c hc => Or.inr (featDict_uniform hlen hfa (hcn c hc))
  have hy0 := featDict_uniform hlen hfa hchl
  have hz := featDict_uniform hlen hfa hno3
  constructor
  · intro hd
    rcases fc_ok M (featDict names feats) npix d H hcne hoff hfeat hy0 hz hd with
      ⟨y2, z, hze, hzl, hzu, hfce, hy2l, hy2u, _⟩
    rw [hfor, hfce]
    have hnl : (nullify y2 z).length = d := by
      rw [nullify_length, hy2l, hzl, min_self]
    refine ⟨_, rfl, ?_, ?_⟩
    · exact pySliceLast_length hH (by omega)
    · intro g hg
      exact nullify_uniform hy2u hzu g (pySliceLast_mem hg)
  · intro hd
    rw [hfor]
    exact fc_err M (featDict names feats) npix d H hoff hcne hfeat hy0
      ⟨hz.choose, hz.choose_spec.1⟩ hH hd

theorem max0_nan_or_nonneg (x : Val) : x.max0 = Val.nan ∨ x.max0.nonneg := by
  cases x with
  | fin q => exact Or.inr (le_max_left 0 q)
  | nan => exact Or.inl rfl
  | pinf => exact Or.inr trivial
  | ninf => exact Or.inr (le_refl 0)

/-- **C4** — For every pixel and every returned forecast day `j`: if the
nitrate feature value at that output day (input day `d - horizon + j`, the
day the output day corresponds to) for that pixel is non-finite, then the
returned chlorophyll forecast at day `j` for that pixel is NaN, whatever
the model predicted; the mask is each output day's own nitrate slice. -/
theorem forecast_nitrate_mask_nan (M : Model) (H npix d : Nat)
    (names : List String) (feats : List Arr)
    (hH : 1 ≤ H)
    (hlen : names.length = feats.length)
    (hfa : ∀ a ∈ feats, a.length = d ∧ Uniform npix a)
    (hchl : VID_CHL ∈ names) (hno3 : VID_NO3 ∈ names)
    (hcn : ∀ c ∈ M.columns, c.2 ∈ names)
    (hcne : M.columns ≠ []) (hoff : ∀ c ∈ M.columns, c.1 ≤ 0)
    (hd : M.history + H ≤ d)
    {out : Arr} (hout : forecast M H false names feats = .ok out)
    {zA : Arr} (hzA : featDict names feats VID_NO3 = some zA)
    {j p : Nat} (hj : j < H)
    {zg : Grid} (hzj : zA.get? (d - H + j) = some zg)
    {v : Val} (hp : zg.get? p = some v) (hv : v.isFinite = false) :
    ∃ g, out.get? j = some g ∧ g.get? p = some Val.nan := by
  have hfor : forecast M H false names feats = fc M H (featDict names feats) := rfl
  have hfeat : ∀ c ∈ M.columns, c.2 = VID_CHL ∨
      ∃ a, featDict names feats c.2 = some a ∧ a.length = d ∧ Uniform npix a :=
    fun c hc => Or.inr (featDict_uniform hlen hfa (hcn c hc))
  rcases fc_ok M (featDict names feats) npix d H hcne hoff hfeat
    (featDict_uniform hlen hfa hchl) (featDict_uniform hlen hfa hno3) hd with
    ⟨y2, z, hze, hzl, hzu, hfce, hy2l, hy2u, _⟩
  have hzz : z = zA := by
    rw [hze] at hzA
    exact Option.some.inj hzA
  subst hzz
  rw [hfor, hfce] at hout
  have hout2 : out = pySliceLast H (nullify y2 z) := (Except.ok.inj hout).symm
  have hnl : (nullify y2 z).length = d := by
    rw [nullify_length, hy2l, hzl, min_self]
  have hidx : d - H + j < d := by omega
  have hylt : d - H + j < y2.length := by omega
  have hyg : y2.get? (d - H + j) = some (y2.get ⟨d - H + j, hylt⟩) :=
    List.get?_eq_get hylt
  have houtj : out.get? j = some ((y2.get ⟨d - H + j, hylt⟩).zipWith
      (fun a b => if b.isFinite then a else Val.nan) zg) := by
    rw [hout2, pySliceLast_get? hH, hnl, nullify_get?, hyg]
    simp only [Option.some_bind, hzj, Option.map_some']
  refine ⟨_, houtj, ?_⟩
  have hplt : p < zg.length := (List.get?_eq_some.mp hp).1
  have hyglen : (y2.get ⟨d - H + j, hylt⟩).length = npix :=
    hy2u _ (List.get_mem _ _ _)
  have hpy : p < (y2.get ⟨d - H + j, hylt⟩).length := by
    rw [hyglen, ← hzu zg (by exact List.get?_mem hzj)]
    exact hplt
  have hyp : (y2.get ⟨d - H + j, hylt⟩).get? p =
      some ((y2.get ⟨d - H + j, hylt⟩).get ⟨p, hpy⟩) := List.get?_eq_get hpy
  rw [zipWith_get? _ _ _ p, hyp]
  simp only [Option.some_bind, hp, Option.map_some', hv]
  rfl

/-- **C5** — Every non-NaN value in the returned (non-test-mode) forecast
array is zero or greater: each per-day model prediction is clipped by
`np.maximum(0.0, ·)` before being written, and the only other values the
output can hold are the NaNs written by the nitrate nullification. -/
theorem forecast_values_nonneg (M : Model) (H npix d : Nat)
    (names : List String) (feats : List Arr)
    (hH : 1 ≤ H)
    (hlen : names.length = feats.length)
    (hfa : ∀ a ∈ feats, a.length = d ∧ Uniform npix a)
    (hchl : VID_CHL ∈ names) (hno3 : VID_NO3 ∈ names)
    (hcn : ∀ c ∈ M.columns, c.2 ∈ names)
    (hcne : M.columns ≠ []) (hoff : ∀ c ∈ M.columns, c.1 ≤ 0)
    (hd : M.history + H ≤ d)
    {out : Arr} (hout : forecast M H false names feats = .ok out) :
    ∀ g ∈ out, ∀ v ∈ g, v ≠ Val.nan → v.nonneg := by
  have hfor : forecast M H false names feats = fc M H (featDict names feats) := rfl
  have hfeat : ∀ c ∈ M.columns, c.2 = VID_CHL ∨
      ∃ a, featDict names feats c.2 = some a ∧ a.length = d ∧ Uniform npix a :=
    fun c hc => Or.inr (featDict_uniform hlen hfa (hcn c hc))
  rcases fc_ok M (featDict names feats) npix d H hcne hoff hfeat
    (featDict_uniform hlen hfa hchl) (featDict_uniform hlen hfa hno3) hd with
    ⟨y2, z, hze, hzl, hzu, hfce, hy2l, hy2u, hy2wr⟩
  rw [hfor, hfce] at hout
  have hout2 : out = pySliceLast H (nullify y2 z) := (Except.ok.inj hout).symm
  have hnl : (nullify y2 z).length = d := by
    rw [nullify_length, hy2l, hzl, min_self]
  intro g hg v hv hvne
  rcases List.get?_of_mem hg with ⟨j, hj⟩
  have hjlt : j < out.length := (List.get?_eq_some.mp hj).1
  have houtl : out.length = H := by
    rw [hout2]
    exact pySliceLast_length hH (by omega)
  have hget : out.get? j = (nullify y2 z).get? (d - H + j) := by
    rw [hout2, pySliceLast_get? hH, hnl]
  rw [hget, nullify_get?] at hj
  rcases Option.bind_eq_some.mp hj with ⟨yd, hyd, hmap⟩
  rcases Option.map_eq_some.mp hmap with ⟨zd, hzd, hzip⟩
  rcases hy2wr (d - H + j) (by omega) (by omega) with ⟨rows, hrows⟩
  have hydp : yd = predictRows M rows := by
    rw [hyd] at hrows
    exact Option.some.inj hrows.symm |>.symm
  rw [← hzip] at hv
  rcases mem_zipWith hv with ⟨u, hu, w, hw, hval⟩
  by_cases hfin : w.isFinite
  · have : v = u := by rw [hval, if_pos hfin]
    subst this
    rw [hydp] at hu
    rcases List.mem_map.mp hu with ⟨r, _, hr⟩
    rcases max0_nan_or_nonneg (M.predict r) with h | h
    · rw [hr] at h
      exact absurd h hvne
    · rw [hr] at h
      exact h
  · have : v = Val.nan := by rw [hval, if_neg hfin]
    exact absurd this hvne

theorem pySlice_length {a : Arr} {t u : Nat} (ht : t ≤ u) (hu : u ≤ a.length) :
    (pySlice a t u).length = u - t := by
  unfold pySlice
  rw [List.length_take, List.length_drop]
  omega

theorem pySlice_mem {a : Arr} {t u : Nat} {g : Grid} (hg : g ∈ pySlice a t u) :
    g ∈ a := by
  unfold pySlice at hg
  exact List.mem_of_mem_drop (List.mem_of_mem_take hg)

theorem pySlice_zero_all {a : Arr} {u : Nat} (hu : a.length ≤ u) :
    pySlice a 0 u = a := by
  unfold pySlice
  rw [List.drop_zero, Nat.sub_zero, List.take_of_length_le hu]

theorem forecast_test_eq (M : Model) (H : Nat) (names : List String)
    (f0 : Arr) (rest : List Arr)
    (hm : ¬ ((f0.length : Int) - M.history - H + 1 < 0)) :
    forecast M H true names (f0 :: rest) =
      (List.range ((f0.length : Int) - M.history - H + 1).toNat).mapM fun t =>
        match fc M H (featDict names
            ((f0 :: rest).map fun a => pySlice a t (t + M.history + H))) with
        | .error e => .error e
        | .ok out =>
          match pyGet out (-1) with
          | none => .error .indexError
          | some g => .ok g := by
  simp only [forecast, Bool.not_true]
  rw [if_neg (by simp), if_neg hm]

/-- **C2** — Test mode on `d`-day inputs with `d ≥ history + horizon`
returns exactly `d - history - horizon + 1` days; when
`d = history + horizon` it returns exactly one day, and that day is the
last (horizon-th) day of the non-test-mode call on that same window. -/
theorem forecast_test_day_count (M : Model) (H npix d : Nat)
    (names : List String) (feats : List Arr)
    (hH : 1 ≤ H)
    (hlen : names.length = feats.length)
    (hfa : ∀ a ∈ feats, a.length = d ∧ Uniform npix a)
    (hchl : VID_CHL ∈ names) (hno3 : VID_NO3 ∈ names)
    (hcn : ∀ c ∈ M.columns, c.2 ∈ names)
    (hcne : M.columns ≠ []) (hoff : ∀ c ∈ M.columns, c.1 ≤ 0)
    (hd : M.history + H ≤ d) :
    ∃ ys, forecast M H true names feats = .ok ys ∧
      ys.length = d - M.history - H + 1 ∧
      (d = M.history + H → ∃ out g, forecast M H false names feats = .ok out ∧
        out.getLast? = some g ∧ ys = [g]) := by
  obtain ⟨f0, rest, rfl⟩ : ∃ f0 rest, feats = f0 :: rest := by
    cases feats with
    | nil =>
      rw [List.length_nil] at hlen
      rw [List.length_eq_zero.mp hlen] at hchl
      simp at hchl
    | cons f0 rest => exact ⟨f0, rest, rfl⟩
  have hd0 : f0.length = d := (hfa f0 (by simp)).1
  have hm : ¬ ((f0.length : Int) - M.history - H + 1 < 0) := by
    rw [hd0]; omega
  have hmt : ((f0.length : Int) - M.history - H + 1).toNat = d - M.history - H + 1 := by
    rw [hd0]; omega
  rw [forecast_test_eq M H names f0 rest hm]
  have hwin : ∀ t, t < d - M.history - H + 1 →
      ∃ out g, fc M H (featDict names
          ((f0 :: rest).map fun a => pySlice a t (t + M.history + H))) = .ok out ∧
        out.length = H ∧ pyGet out (-1) = some g := by
    intro t ht
    have hfa2 : ∀ a ∈ (f0 :: rest).map fun a => pySlice a t (t + M.history + H),
        a.length = M.history + H ∧ Uniform npix a := by
      intro a2 ha2
      rcases List.mem_map.mp ha2 with ⟨a, ha, haeq⟩
      have hal := (hfa a ha).1
      have hau := (hfa a ha).2
      constructor
      · rw [← haeq, pySlice_length (by omega) (by omega)]
        omega
      · intro g hg
        exact hau g (pySlice_mem (haeq ▸ hg))
    have hlen2 : names.length = ((f0 :: rest).map
        fun a => pySlice a t (t + M.history + H)).length := by
      rw [List.length_map]; exact hlen
    have hfeat2 : ∀ c ∈ M.columns, c.2 = VID_CHL ∨
        ∃ a, featDict names ((f0 :: rest).map fun a => pySlice a t (t + M.history + H)) c.2 =
          some a ∧ a.length = M.history + H ∧ Uniform npix a :=
      fun c hc => Or.inr (featDict_uniform hlen2 hfa2 (hcn c hc))
    rcases fc_ok M _ npix (M.history + H) H hcne hoff hfeat2
      (featDict_uniform hlen2 hfa2 hchl) (featDict_uniform hlen2 hfa2 hno3)
      (le_refl _) with ⟨y2, z, _, hzl, _, hfce, hy2l, _, _⟩
    have hnl : (nullify y2 z).length = M.history + H := by
      rw [nullify_length, hy2l, hzl, min_self]
    have houtl : (pySliceLast H (nullify y2 z)).length = H :=
      pySliceLast_length hH (by omega)
    have hlast : ∃ g, pyGet (pySliceLast H (nullify y2 z)) (-1) = some g := by
      unfold pyGet
      rw [pyIdx_negI (by omega) (by rw [houtl]; omega)]
      have hlt : (((pySliceLast H (nullify y2 z)).length : Int) + (-1)).toNat <
          (pySliceLast H (nullify y2 z)).length := by
        rw [houtl]; omega
      exact ⟨_, List.get?_eq_get hlt⟩
    rcases hlast with ⟨g, hg⟩
    exact ⟨_, g, hfce, houtl, hg⟩
  have hok : ∃ ys, ((List.range ((f0.length : Int) - M.history - H + 1).toNat).mapM fun t =>
      match fc M H (featDict names
          ((f0 :: rest).map fun a => pySlice a t (t + M.history + H))) with
      | Except.error e => Except.error e
      | Except.ok out =>
        match pyGet out (-1) with
        | none => Except.error Err.indexError
        | some g => Except.ok g) = Except.ok ys ∧
      ys.length = (List.range ((f0.length : Int) - M.history - H + 1).toNat).length ∧
      ∀ b ∈ ys, True := by
    refine mapM_ok_of _ ?_
    intro t ht
    rw [List.mem_range, hmt] at ht
    rcases hwin t ht with ⟨out, g, hfce, _, hg⟩
    exact ⟨g, by simp only [hfce, hg], trivial⟩
  rcases hok with ⟨ys, hys, hyslen, _⟩
  refine ⟨ys, hys, by rw [hyslen, List.length_range, hmt], ?_⟩
  intro hdeq
  rcases hwin 0 (by omega) with ⟨out, g, hfce0, houtl0, hg0⟩
  have hfeats_eq : ((f0 :: rest).map fun a => pySlice a 0 (0 + M.history + H)) =
      f0 :: rest := by
    rw [show ((f0 :: rest).map fun a => pySlice a 0 (0 + M.history + H)) =
        (f0 :: rest).map id from ?_, List.map_id]
    apply List.map_congr_left
    intro a ha
    have hal := (hfa a ha).1
    exact pySlice_zero_all (by omega)
  have hm1 : ((f0.length : Int) - M.history - H + 1).toNat = 1 := by
    rw [hd0]; omega
  have hcomp : ((List.range ((f0.length : Int) - M.history - H + 1).toNat).mapM fun t =>
      match fc M H (featDict names
          ((f0 :: rest).map fun a => pySlice a t (t + M.history + H))) with
      | Except.error e => Except.error e
      | Except.ok out =>
        match pyGet out (-1) with
        | none => Except.error Err.indexError
        | some g => Except.ok g) = Except.ok [g] := by
    rw [hm1, List.range_succ, List.range_zero, List.nil_append,
      List.mapM_cons, List.mapM_nil]
    simp only [hfce0, hg0]
    rfl
  have hyseq : ys = [g] := by
    rw [hys] at hcomp
    exact Except.ok.inj hcomp
  have hfor : forecast M H false names (f0 :: rest) =
      fc M H (featDict names (f0 :: rest)) := rfl
  rw [hfeats_eq] at hfce0
  refine ⟨out, g, by rw [hfor, hfce0], ?_, hyseq⟩
  unfold pyGet at hg0
  rw [pyIdx_negI (by omega) (by rw [houtl0]; omega)] at hg0
  have hcnv : (((out.length : Int) + (-1)).toNat) = out.length - 1 := by omega
  rw [hcnv] at hg0
  rw [List.getLast?_eq_get? out]
  exact hg0

/-- **C3** — The recursive loop is autoregressive.  In the spec's
scenario — feature columns `{(0,"chl"), (-1,"chl"), (0,"no3")}` (so
`history = 1`), `horizon = 2`, 3-day inputs `[g0, g1, g2]` (chlorophyll)
and `[m0, m1, m2]` (nitrate) — the output has exactly 2 days, the first
being `pred0` (predicted from raw day-1 chl, raw day-0 chl, day-1 no3)
and the second `pred1`, whose `t-1` chlorophyll column reads `pred0`,
the model's own clipped day-1 prediction, not the raw input `g1` (each
day then masked by that day's own nitrate finiteness). -/
theorem forecast_autoregressive_scenario (p : List Val → Val) (npix : Nat)
    (g0 g1 g2 m0 m1 m2 : Grid)
    (hg0 : g0.length = npix) (hg1 : g1.length = npix) (hg2 : g2.length = npix)
    (hm0 : m0.length = npix) (hm1 : m1.length = npix) (hm2 : m2.length = npix) :
    ∃ pred0 pred1 : Grid,
      pred0 = predictRows ⟨[(0, VID_CHL), (-1, VID_CHL), (0, VID_NO3)], p⟩
        ((List.range npix).map fun q =>
          [g1.getD q Val.nan, g0.getD q Val.nan, m1.getD q Val.nan]) ∧
      pred1 = predictRows ⟨[(0, VID_CHL), (-1, VID_CHL), (0, VID_NO3)], p⟩
        ((List.range npix).map fun q =>
          [g2.getD q Val.nan, pred0.getD q Val.nan, m2.getD q Val.nan]) ∧
      forecast ⟨[(0, VID_CHL), (-1, VID_CHL), (0, VID_NO3)], p⟩ 2 false
          [VID_CHL, VID_NO3] [[g0, g1, g2], [m0, m1, m2]] =
        .ok [List.zipWith (fun a b => if b.isFinite then a else Val.nan) pred0 m1,
          List.zipWith (fun a b => if b.isFinite then a else Val.nan) pred1 m2] := by
  refine ⟨_, _, rfl, rfl, ?_⟩
  have htab0 : tableT [g1, g0, m1] = Except.ok ((List.range npix).map fun q =>
      [g1, g0, m1].map fun c => c.getD q Val.nan) := by
    refine tableT_ok (by simp) ?_
    intro g hg
    rcases List.mem_cons.mp hg with h | h
    · rw [h, hg1]
    rcases List.mem_cons.mp h with h2 | h2
    · rw [h2, hg0]
    rcases List.mem_cons.mp h2 with h3 | h3
    · rw [h3, hm1]
    · simp at h3
  have hP0len : (predictRows ⟨[(0, VID_CHL), (-1, VID_CHL), (0, VID_NO3)], p⟩
      ((List.range npix).map fun q =>
        [g1, g0, m1].map fun c => c.getD q Val.nan)).length = npix := by
    rw [predictRows_length, List.length_map, List.length_range]
  have htab1 : tableT [g2, predictRows ⟨[(0, VID_CHL), (-1, VID_CHL), (0, VID_NO3)], p⟩
      ((List.range npix).map fun q => [g1, g0, m1].map fun c => c.getD q Val.nan), m2] =
      Except.ok ((List.range npix).map fun q =>
        [g2, predictRows ⟨[(0, VID_CHL), (-1, VID_CHL), (0, VID_NO3)], p⟩
          ((List.range npix).map fun q2 => [g1, g0, m1].map fun c => c.getD q2 Val.nan),
          m2].map fun c => c.getD q Val.nan) := by
    refine tableT_ok (by simp) ?_
    intro g hg
    rcases List.mem_cons.mp hg with h | h
    · rw [h, hg2]
    rcases List.mem_cons.mp h with h2 | h2
    · rw [h2]
      exact hP0len
    rcases List.mem_cons.mp h2 with h3 | h3
    · rw [h3, hm2]
    · simp at h3
  have h2 : fcLoop ⟨[(0, VID_CHL), (-1, VID_CHL), (0, VID_NO3)], p⟩
      (featDict [VID_CHL, VID_NO3] [[g0, g1, g2], [m0, m1, m2]]) 2 [g0, g1, g2] =
      (match tableT [g1, g0, m1] with
      | Except.error e => Except.error e
      | Except.ok rows =>
        fcLoop ⟨[(0, VID_CHL), (-1, VID_CHL), (0, VID_NO3)], p⟩
          (featDict [VID_CHL, VID_NO3] [[g0, g1, g2], [m0, m1, m2]]) 1
          [g0, predictRows ⟨[(0, VID_CHL), (-1, VID_CHL), (0, VID_NO3)], p⟩ rows, g2]) :=
    rfl
  have h1 : fcLoop ⟨[(0, VID_CHL), (-1, VID_CHL), (0, VID_NO3)], p⟩
      (featDict [VID_CHL, VID_NO3] [[g0, g1, g2], [m0, m1, m2]]) 1
      [g0, predictRows ⟨[(0, VID_CHL), (-1, VID_CHL), (0, VID_NO3)], p⟩
        ((List.range npix).map fun q => [g1, g0, m1].map fun c => c.getD q Val.nan), g2] =
      (match tableT [g2, predictRows ⟨[(0, VID_CHL), (-1, VID_CHL), (0, VID_NO3)], p⟩
          ((List.range npix).map fun q => [g1, g0, m1].map fun c => c.getD q Val.nan), m2] with
      | Except.error e => Except.error e
      | Except.ok rows =>
        Except.ok [g0, predictRows ⟨[(0, VID_CHL), (-1, VID_CHL), (0, VID_NO3)], p⟩
          ((List.range npix).map fun q => [g1, g0, m1].map fun c => c.getD q Val.nan),
          predictRows ⟨[(0, VID_CHL), (-1, VID_CHL), (0, VID_NO3)], p⟩ rows]) := rfl
  have hfc : forecast ⟨[(0, VID_CHL), (-1, VID_CHL), (0, VID_NO3)], p⟩ 2 false
      [VID_CHL, VID_NO3] [[g0, g1, g2], [m0, m1, m2]] =
      (match fcLoop ⟨[(0, VID_CHL), (-1, VID_CHL), (0, VID_NO3)], p⟩
          (featDict [VID_CHL, VID_NO3] [[g0, g1, g2], [m0, m1, m2]]) 2 [g0, g1, g2] with
      | Except.error e => Except.error e
      | Except.ok y => Except.ok (pySliceLast 2 (nullify y [m0, m1, m2]))) := rfl
  rw [hfc, h2]
  simp only [htab0]
  rw [h1]
  simp only [htab1]
  rfl

theorem mapM_option_perm {α β : Type} {f : α → Option β} {l l' : List α}
    (hperm : l.Perm l') :
    ∀ {xs : List β}, l.mapM f = some xs → ∃ xs', l'.mapM f = some xs' ∧ xs.Perm xs' := by
  induction hperm with
  | nil =>
    intro xs h
    exact ⟨xs, h, List.Perm.refl xs⟩
  | cons a hp ih =>
    intro xs hxs
    rw [List.mapM_cons] at hxs
    rcases Option.bind_eq_some.mp hxs with ⟨b, hb, hrest⟩
    rcases Option.bind_eq_some.mp hrest with ⟨bs, hbs, hpure⟩
    rcases ih hbs with ⟨bs', hbs', hbperm⟩
    refine ⟨b :: bs', ?_, ?_⟩
    · rw [List.mapM_cons, hb, hbs']
      rfl
    · have hxseq : xs = b :: bs := by
        have h6 := hpure
        simp at h6
        exact h6.symm
      rw [hxseq]
      exact List.Perm.cons b hbperm
  | swap a b l =>
    intro xs hxs
    rw [List.mapM_cons, List.mapM_cons] at hxs
    rcases Option.bind_eq_some.mp hxs with ⟨vb, hvb, h1⟩
    rcases Option.bind_eq_some.mp h1 with ⟨rest1, h2, h3⟩
    rcases Option.bind_eq_some.mp h2 with ⟨va, hva, h4⟩
    rcases Option.bind_eq_some.mp h4 with ⟨vs, hvs, h5⟩
    have hr1 : rest1 = va :: vs := by
      have := h5
      simp at this
      exact this.symm
    have hxseq : xs = vb :: va :: vs := by
      rw [hr1] at h3
      have := h3
      simp at this
      exact this.symm
    refine ⟨va :: vb :: vs, ?_, ?_⟩
    · rw [List.mapM_cons, List.mapM_cons, hva, hvb, hvs]
      rfl
    · rw [hxseq]
      exact List.Perm.swap va vb vs
  | trans h1 h2 ih1 ih2 =>
    intro xs hxs
    rcases ih1 hxs with ⟨xs1, hxs1, hp1⟩
    rcases ih2 hxs1 with ⟨xs2, hxs2, hp2⟩
    exact ⟨xs2, hxs2, hp1.trans hp2⟩

theorem foldl_min_cons_comm (l : List Int) :
    ∀ x a : Int, List.foldl min x (a :: l) = min x (List.foldl min a l) := by
  induction l with
  | nil => intro x a; rfl
  | cons b l ih =>
    intro x a
    have h1 : List.foldl min x (a :: b :: l) = List.foldl min (min x a) (b :: l) := rfl
    rw [h1, ih (min x a) b, ih a b, min_assoc]

/-- **C6** — For every loaded model (any feature-name list that
`load_model` parses successfully, with at least one column), the derived
`history` equals `max(0, -min(offset))` over the feature columns, and is
invariant under permuting the order in which the feature columns are
declared. -/
theorem load_model_history_min_offset (p : List Val → Val)
    (names names' : List String) (cols : List (Int × String))
    (hperm : names'.Perm names)
    (hload : loadColumns names = some cols) (hne : cols ≠ []) :
    ∃ m cols', (cols.map Prod.fst).min? = some m ∧
      ((Model.mk cols p).history : Int) = max 0 (-m) ∧
      loadColumns names' = some cols' ∧
      (Model.mk cols' p).history = (Model.mk cols p).history := by
  haveI : Std.Commutative (min : Int → Int → Int) := ⟨fun a b => min_comm a b⟩
  haveI : Std.Associative (min : Int → Int → Int) := ⟨fun a b c => min_assoc a b c⟩
  rcases mapM_option_perm hperm.symm hload with ⟨cols', hcols', hcperm⟩
  obtain ⟨c, rest, rfl⟩ : ∃ c rest, cols = c :: rest := by
    cases cols with
    | nil => exact absurd rfl hne
    | cons c rest => exact ⟨c, rest, rfl⟩
  refine ⟨(rest.map Prod.fst).foldl min c.1, cols', rfl, ?_, hcols', ?_⟩
  · have h1 := history_eq_neg_foldl ⟨c :: rest, p⟩
    have h2 : ((c :: rest).map Prod.fst).foldl min 0 =
        min 0 ((rest.map Prod.fst).foldl min c.1) := by
      show List.foldl min 0 (c.1 :: rest.map Prod.fst) = _
      exact foldl_min_cons_comm _ 0 c.1
    rw [h2] at h1
    simp only [Model.history] at h1 ⊢
    omega
  · have h1 := history_eq_neg_foldl ⟨c :: rest, p⟩
    have h2 := history_eq_neg_foldl ⟨cols', p⟩
    have h3 : ((c :: rest).map Prod.fst).foldl min 0 =
        (cols'.map Prod.fst).foldl min 0 :=
      List.Perm.foldl_eq (hcperm.map Prod.fst) 0
    simp only [Model.history] at h1 h2 ⊢
    omega

/-- **C7 (counterexample)** — The claim that the forecast algorithm's set
of created axes is empty is false: `Forecast.created_axes` returns `[0]`
(forecast.py lines 98–101). -/
theorem created_axes_nonempty_cex : Forecast.createdAxes ≠ ([] : List Nat) := by
  decide

/-- **C7 (amended)** — The forecast algorithm family declares axis 0 as a
*created* axis and also as a *dropped* axis: the temporal axis is dropped
and re-created with a new (formula-determined) size, the dask
`map_blocks` idiom for a resized leading axis; the created-axes set is
`{0}`, not empty. -/
theorem created_axes_names_axis_zero :
    Forecast.createdAxes = [0] ∧ Forecast.droppedAxes = [0] := by
  decide

/-! ## Dictionary lemmas for the builder -/

theorem lookup_append {β : Type} (l1 l2 : List (String × β)) (k : String) :
    (l1 ++ l2).lookup k =
      match l1.lookup k with
      | some v => some v
      | none => l2.lookup k := by
  induction l1 with
  | nil => rfl
  | cons p l ih =>
    rw [List.cons_append, List.lookup, List.lookup]
    by_cases h : k = p.1
    · have hb : (k == p.1) = true := by simpa using h
      rw [hb]
    · have hb : (k == p.1) = false := by simpa using h
      rw [hb, ih]

theorem lookup_map_repl_self {β : Type} (k : String) (v : β) :
    ∀ l : List (String × β), (l.lookup k).isSome →
      ((l.map fun p => if p.1 = k then (k, v) else p).lookup k) = some v := by
  intro l
  induction l with
  | nil => intro h; simp [List.lookup] at h
  | cons p l ih =>
    intro h
    by_cases hp : p.1 = k
    · rw [List.map_cons, if_pos hp]
      simp [List.lookup]
    · rw [List.map_cons, if_neg hp]
      rw [List.lookup] at h ⊢
      have hb : (k == p.1) = false := by
        refine beq_eq_false_iff_ne.mpr fun he => hp he.symm
      rw [hb] at h ⊢
      exact ih h

theorem lookup_map_repl_ne {β : Type} (k k' : String) (v : β) (h : k' ≠ k)
    (l : List (String × β)) :
    ((l.map fun p => if p.1 = k then (k, v) else p).lookup k') = l.lookup k' := by
  induction l with
  | nil => rfl
  | cons p l ih =>
    by_cases hp : p.1 = k
    · rw [List.map_cons, if_pos hp, List.lookup, List.lookup]
      have h1 : (k' == k) = false := beq_eq_false_iff_ne.mpr h
      have h2 : (k' == p.1) = false := by rw [hp]; exact h1
      rw [h1, h2]
      exact ih
    · rw [List.map_cons, if_neg hp, List.lookup, List.lookup]
      by_cases hk : k' = p.1
      · have hb : (k' == p.1) = true := by simpa using hk
        rw [hb]
      · have hb : (k' == p.1) = false := beq_eq_false_iff_ne.mpr hk
        rw [hb]
        exact ih

theorem lookup_dset_self {β : Type} (l : List (String × β)) (k : String) (v : β) :
    (dset l k v).lookup k = some v := by
  unfold dset
  by_cases h : (l.lookup k).isSome
  · rw [if_pos h]
    exact lookup_map_repl_self k v l h
  · rw [if_neg h, lookup_append]
    rw [Option.not_isSome_iff_eq_none] at h
    rw [h]
    simp [List.lookup]

theorem lookup_dset_ne {β : Type} (l : List (String × β)) (k k' : String) (v : β)
    (h : k' ≠ k) : (dset l k v).lookup k' = l.lookup k' := by
  unfold dset
  by_cases hs : (l.lookup k).isSome
  · rw [if_pos hs]
    exact lookup_map_repl_ne k k' v h l
  · rw [if_neg hs, lookup_append]
    cases hl : l.lookup k' with
    | some w => rfl
    | none =>
      show List.lookup k' [(k, v)] = none
      rw [List.lookup, beq_eq_false_iff_ne.mpr h]
      rfl

/-! ## Single-axis lemmas for `_add_array` -/

theorem chunkStep_ok {arr : DArray} {b : Builder} {i : Nat} {dd : String}
    (hck : arr.isDask = true → (arr.chunksize.get? i).isSome) :
    ∃ b2, Builder.chunkStep arr b i dd = .ok b2 := by
  unfold Builder.chunkStep
  by_cases hd : arr.isDask = true
  · rw [if_pos hd]
    rcases Option.isSome_iff_exists.mp (hck hd) with ⟨ck, hcke⟩
    rw [hcke]
    cases hl : b.chunkDict.lookup dd with
    | some c =>
      show ∃ b2, (if ck < c then
          Except.ok { b with chunkDict := dset b.chunkDict dd ck }
        else Except.ok b) = Except.ok b2
      by_cases hlt : ck < c
      · rw [if_pos hlt]; exact ⟨_, rfl⟩
      · rw [if_neg hlt]; exact ⟨_, rfl⟩
    | none => exact ⟨_, rfl⟩
  · rw [if_neg hd]; exact ⟨_, rfl⟩

theorem chunkStep_shapeDict {arr : DArray} {b : Builder} {i : Nat} {dd : String}
    {b2 : Builder} (h : Builder.chunkStep arr b i dd = .ok b2) :
    b2.shapeDict = b.shapeDict := by
  unfold Builder.chunkStep at h
  split at h
  · split at h
    · exact absurd h (by simp)
    · split at h
      · split at h
        · cases h; rfl
        · cases h; rfl
      · cases h; rfl
  · cases h; rfl

theorem chunkStep_chunk_other {arr : DArray} {b : Builder} {i : Nat} {e dd : String}
    {b2 : Builder} (h : Builder.chunkStep arr b i e = .ok b2) (hne : dd ≠ e) :
    b2.chunkDict.lookup dd = b.chunkDict.lookup dd := by
  unfold Builder.chunkStep at h
  split at h
  · split at h
    · exact absurd h (by simp)
    · split at h
      · split at h
        · cases h; exact lookup_dset_ne _ _ _ _ hne
        · cases h; rfl
      · cases h; exact lookup_dset_ne _ _ _ _ hne
  · cases h; rfl

theorem chunkStep_chunk_self {arr : DArray} {b : Builder} {i : Nat} {dd : String}
    {b2 : Builder} {c ck : Nat} (hdask : arr.isDask = true)
    (h : Builder.chunkStep arr b i dd = .ok b2)
    (hc : b.chunkDict.lookup dd = some c)
    (hck : arr.chunksize.get? i = some ck) :
    b2.chunkDict.lookup dd = some (min c ck) := by
  unfold Builder.chunkStep at h
  rw [if_pos hdask, hck, hc] at h
  replace h : (if ck < c then
      Except.ok { b with chunkDict := dset b.chunkDict dd ck }
    else Except.ok b) = Except.ok b2 := h
  by_cases hlt : ck < c
  · rw [if_pos hlt] at h
    cases h
    rw [lookup_dset_self]
    congr 1
    omega
  · rw [if_neg hlt] at h
    cases h
    rw [hc]
    congr 1
    omega

theorem axisStep_cases {vid : String} {arr : DArray} {b : Builder} {i : Nat}
    {e : String} {b2 : Builder} (h : Builder.axisStep vid arr b i e = .ok b2) :
    ∃ bmid, Builder.chunkStep arr bmid i e = .ok b2 ∧
      bmid.chunkDict = b.chunkDict ∧
      (bmid = b ∨ (b.shapeDict.lookup e = none ∧ ∃ s',
        arr.shape.get? i = some s' ∧ bmid.shapeDict = dset b.shapeDict e s')) := by
  unfold Builder.axisStep at h
  split at h
  · exact absurd h (by simp)
  · rename_i s' hs'
    split at h
    · split at h
      · exact ⟨b, h, rfl, Or.inl rfl⟩
      · exact absurd h (by simp)
    · rename_i hnone
      exact ⟨_, h, rfl, Or.inr ⟨hnone, s', hs', rfl⟩⟩

theorem axisStep_shape_mono {vid : String} {arr : DArray} {b : Builder} {i : Nat}
    {e : String} {b2 : Builder} (h : Builder.axisStep vid arr b i e = .ok b2)
    {k : String} {s : Nat} (hk : b.shapeDict.lookup k = some s) :
    b2.shapeDict.lookup k = some s := by
  rcases axisStep_cases h with ⟨bmid, hcs, _, hm | ⟨hnone, s', _, hsd⟩⟩
  · rw [chunkStep_shapeDict hcs, hm]
    exact hk
  · rw [chunkStep_shapeDict hcs, hsd]
    have hke : k ≠ e := fun he => by rw [he, hnone] at hk; exact absurd hk (by simp)
    rw [lookup_dset_ne _ _ _ _ hke]
    exact hk

theorem axisStep_chunk_other {vid : String} {arr : DArray} {b : Builder} {i : Nat}
    {e dd : String} {b2 : Builder} (h : Builder.axisStep vid arr b i e = .ok b2)
    (hne : dd ≠ e) : b2.chunkDict.lookup dd = b.chunkDict.lookup dd := by
  rcases axisStep_cases h with ⟨bmid, hcs, hck, _⟩
  rw [chunkStep_chunk_other hcs hne, hck]

theorem axisStep_chunk_self {vid : String} {arr : DArray} {b : Builder} {i : Nat}
    {dd : String} {b2 : Builder} {c ck : Nat} (hdask : arr.isDask = true)
    (h : Builder.axisStep vid arr b i dd = .ok b2)
    (hc : b.chunkDict.lookup dd = some c)
    (hck : arr.chunksize.get? i = some ck) :
    b2.chunkDict.lookup dd = some (min c ck) := by
  rcases axisStep_cases h with ⟨bmid, hcs, hckd, _⟩
  exact chunkStep_chunk_self hdask hcs (by rw [hckd]; exact hc) hck

theorem axisStep_ok_or_assert {vid : String} {arr : DArray} {b : Builder} {i : Nat}
    {e : String} (hs : (arr.shape.get? i).isSome)
    (hck : arr.isDask = true → (arr.chunksize.get? i).isSome) :
    (∃ b2, Builder.axisStep vid arr b i e = .ok b2) ∨
      ∃ msg, Builder.axisStep vid arr b i e = .error (.assertionError msg) := by
  rcases Option.isSome_iff_exists.mp hs with ⟨s', hs'⟩
  unfold Builder.axisStep
  rw [hs']
  cases hl : b.shapeDict.lookup e with
  | some s =>
    show (∃ b2, (if s' = s then Builder.chunkStep arr b i e
        else Except.error (BuilderError.assertionError
          ("Invalid array shape for variable " ++ vid))) = Except.ok b2) ∨
      ∃ msg, (if s' = s then Builder.chunkStep arr b i e
        else Except.error (BuilderError.assertionError
          ("Invalid array shape for variable " ++ vid))) =
        Except.error (BuilderError.assertionError msg)
    by_cases heq : s' = s
    · rw [if_pos heq]
      exact Or.inl (chunkStep_ok hck)
    · rw [if_neg heq]
      exact Or.inr ⟨_, rfl⟩
  | none => exact Or.inl (chunkStep_ok hck)

theorem axisStep_assert_of_mismatch {vid : String} {arr : DArray} {b : Builder}
    {i : Nat} {e : String} {s s' : Nat}
    (hlk : b.shapeDict.lookup e = some s) (hsh : arr.shape.get? i = some s')
    (hne : s' ≠ s) :
    ∃ msg, Builder.axisStep vid arr b i e = .error (.assertionError msg) := by
  unfold Builder.axisStep
  rw [hsh, hlk]
  show ∃ msg, (if s' = s then Builder.chunkStep arr b i e
      else Except.error (BuilderError.assertionError
        ("Invalid array shape for variable " ++ vid))) =
    Except.error (BuilderError.assertionError msg)
  rw [if_neg hne]
  exact ⟨_, rfl⟩

/-! ## The `_add_array` axis loop -/

theorem addAxes_shape_mono {vid : String} {arr : DArray} :
    ∀ {L : List (Nat × String)} {b b2 : Builder},
      Builder.addAxes vid arr b L = .ok b2 →
      ∀ {k : String} {s : Nat}, b.shapeDict.lookup k = some s →
        b2.shapeDict.lookup k = some s := by
  intro L
  induction L with
  | nil =>
    intro b b2 h k s hk
    cases h
    exact hk
  | cons p L ih =>
    intro b b2 h k s hk
    unfold Builder.addAxes at h
    cases hstep : Builder.axisStep vid arr b p.1 p.2 with
    | error e => rw [hstep] at h; exact absurd h (by simp)
    | ok b1 =>
      rw [hstep] at h
      exact ih h (axisStep_shape_mono hstep hk)

theorem addAxes_assert {vid : String} {arr : DArray} :
    ∀ (L : List (Nat × String)) (b : Builder),
      (∀ p ∈ L, (arr.shape.get? p.1).isSome ∧
        (arr.isDask = true → (arr.chunksize.get? p.1).isSome)) →
      (∃ p ∈ L, ∃ s s', b.shapeDict.lookup p.2 = some s ∧
        arr.shape.get? p.1 = some s' ∧ s' ≠ s) →
      ∃ msg, Builder.addAxes vid arr b L = .error (.assertionError msg) := by
  intro L
  induction L with
  | nil =>
    intro b _ hex
    simp at hex
  | cons p L ih =>
    intro b hcov hex
    rcases hex with ⟨q, hq, s, s', hlk, hsh, hne⟩
    rcases List.mem_cons.mp hq with heq | hqL
    · subst heq
      rcases @axisStep_assert_of_mismatch vid arr b q.1 q.2 s s' hlk hsh hne with ⟨msg, hstep⟩
      refine ⟨msg, ?_⟩
      unfold Builder.addAxes
      rw [hstep]
    · rcases @axisStep_ok_or_assert vid arr b p.1 p.2 (hcov p (by simp)).1
        (hcov p (by simp)).2 with ⟨b1, hstep⟩ | ⟨msg, hstep⟩
      · have hlk1 := axisStep_shape_mono hstep hlk
        rcases ih b1 (fun r hr => hcov r (by simp [hr])) ⟨q, hqL, s, s', hlk1, hsh, hne⟩
          with ⟨msg, hL⟩
        refine ⟨msg, ?_⟩
        unfold Builder.addAxes
        rw [hstep]
        exact hL
      · refine ⟨msg, ?_⟩
        unfold Builder.addAxes
        rw [hstep]

theorem addAxes_chunk_preserved {vid : String} {arr : DArray} {dd : String} :
    ∀ {L : List (Nat × String)} {b b2 : Builder},
      (∀ p ∈ L, p.2 ≠ dd) →
      Builder.addAxes vid arr b L = .ok b2 →
      b2.chunkDict.lookup dd = b.chunkDict.lookup dd := by
  intro L
  induction L with
  | nil =>
    intro b b2 _ h
    cases h
    rfl
  | cons p L ih =>
    intro b b2 hno h
    unfold Builder.addAxes at h
    cases hstep : Builder.axisStep vid arr b p.1 p.2 with
    | error e => rw [hstep] at h; exact absurd h (by simp)
    | ok b1 =>
      rw [hstep] at h
      rw [ih (fun r hr => hno r (by simp [hr])) h]
      exact axisStep_chunk_other hstep (Ne.symm (hno p (by simp)))

theorem addAxes_chunk_min {vid : String} {arr : DArray} (hdask : arr.isDask = true) :
    ∀ {L : List (Nat × String)} {b b2 : Builder} {i : Nat} {dd : String} {c ck : Nat},
      L.Nodup → (i, dd) ∈ L →
      (∀ p ∈ L, p.2 = dd → p = (i, dd)) →
      b.chunkDict.lookup dd = some c →
      arr.chunksize.get? i = some ck →
      Builder.addAxes vid arr b L = .ok b2 →
      b2.chunkDict.lookup dd = some (min c ck) := by
  intro L
  induction L with
  | nil =>
    intro b b2 i dd c ck _ hmem
    simp at hmem
  | cons p L ih =>
    intro b b2 i dd c ck hnd hmem huniq hc hck h
    unfold Builder.addAxes at h
    cases hstep : Builder.axisStep vid arr b p.1 p.2 with
    | error e => rw [hstep] at h; exact absurd h (by simp)
    | ok b1 =>
      rw [hstep] at h
      rcases List.mem_cons.mp hmem with heq | hmemL
      · cases heq
        have h1 : b1.chunkDict.lookup dd = some (min c ck) :=
          axisStep_chunk_self hdask hstep hc hck
        have hno : ∀ r ∈ L, r.2 ≠ dd := by
          intro r hr hrd
          have hre := huniq r (by simp [hr]) hrd
          rw [hre] at hr
          exact (List.nodup_cons.mp hnd).1 hr
        rw [addAxes_chunk_preserved hno h, h1]
      · have hpd : p.2 ≠ dd := by
          intro hp2
          have hpe := huniq p (by simp) hp2
          have hnin := (List.nodup_cons.mp hnd).1
          rw [hpe] at hnin
          exact hnin hmemL
        have hc1 : b1.chunkDict.lookup dd = some c := by
          rw [axisStep_chunk_other hstep (Ne.symm hpd)]
          exact hc
        exact ih (List.nodup_cons.mp hnd).2 hmemL
          (fun r hr hrd => huniq r (by simp [hr]) hrd) hc1 hck h

/-- **C8** — Every array bound to a variable must match, on each axis,
the size already recorded for the corresponding dimension; otherwise the
binding operation itself fails with the builder's consistency failure
(the `assert` on shape agreement, which the specification's taxonomy
names `BuilderConsistencyError`) at the point of violation rather than
being deferred to `build()`.  The scenario — dimension `time` declared
at size 3, a 4-day array bound on `time` — is the witness below. -/
theorem builder_add_array_shape_mismatch (b : Builder) (vid : String) (arr : DArray)
    (dims : List String) (i : Nat) (dd : String) (s s2 : Nat)
    (hdims : b.dimidDict.lookup vid = some dims)
    (hdd : dims.get? i = some dd)
    (hs : b.shapeDict.lookup dd = some s)
    (hshape : arr.shape.get? i = some s2)
    (hne : s2 ≠ s)
    (hcov : ∀ j, j < dims.length → (arr.shape.get? j).isSome ∧
      (arr.isDask = true → (arr.chunksize.get? j).isSome)) :
    ∃ msg, b.addArray vid arr = .error (.assertionError msg) := by
  by_cases hav : (b.arrayDict.lookup vid).isSome
  · refine ⟨"Variable ID " ++ vid ++ " is already associated with an array", ?_⟩
    unfold Builder.addArray
    rw [if_pos hav]
  · have hex : ∃ p ∈ dims.enum, ∃ s3 s4, b.shapeDict.lookup p.2 = some s3 ∧
        arr.shape.get? p.1 = some s4 ∧ s4 ≠ s3 := by
      refine ⟨(i, dd), ?_, s, s2, hs, hshape, hne⟩
      rw [List.mem_enum_iff_getElem?, ← List.get?_eq_getElem?]
      exact hdd
    have hcov2 : ∀ p ∈ dims.enum, (arr.shape.get? p.1).isSome ∧
        (arr.isDask = true → (arr.chunksize.get? p.1).isSome) := by
      intro p hp
      have hpe : dims[p.1]? = some p.2 := List.mem_enum_iff_getElem?.mp hp
      have hlt : p.1 < dims.length := (List.getElem?_eq_some.mp hpe).1
      exact hcov p.1 hlt
    rcases @addAxes_assert vid arr dims.enum b hcov2 hex with ⟨msg, hax⟩
    refine ⟨msg, ?_⟩
    unfold Builder.addArray
    rw [if_neg hav]
    unfold Builder.addArrayCore
    simp only [hdims, hax]

/-- **C9 (counterexample)** — The recorded chunk size is *not* in general
the minimum over the bound arrays alone: declaring `time` with size 4 and
an explicit chunk size 1 (`add_dim("time", 4, 1)`), then binding a single
array with chunk size 2, leaves the record at 1, whereas the minimum
chunk size across all bound arrays is 2. -/
theorem builder_chunk_min_cex :
    ((Builder.empty.addDim "time" 4 (some 1)).bind fun b0 =>
      (b0.addVar "v" ["time"]).bind fun b1 =>
        b1.addArray "v" ⟨[4], [2], true⟩).map (fun b => b.chunkDict.lookup "time") =
      .ok (some 1) ∧ (1 : Nat) ≠ 2 :=
  ⟨rfl, by decide⟩

/-- **C9 (amended)** — For every dimension, binding an array updates the
recorded chunk size to the minimum of the previously recorded chunk size
(initialised by `add_dim` to the declared chunk, defaulting to the
dimension size) and the array's chunk size along that dimension: a
smaller chunk replaces the record, a larger one leaves it unchanged —
so after any sequence of bindings the record is the minimum over the
initial record and all bound arrays' chunks, not over the bound arrays
alone. -/
theorem builder_chunk_record_min (b b2 : Builder) (vid : String) (arr : DArray)
    (dims : List String) (i : Nat) (dd : String) (c ck : Nat)
    (hdims : b.dimidDict.lookup vid = some dims)
    (hdd : dims.get? i = some dd)
    (hnodup : dims.Nodup)
    (hdask : arr.isDask = true)
    (hc : b.chunkDict.lookup dd = some c)
    (hck : arr.chunksize.get? i = some ck)
    (hok : b.addArray vid arr = .ok b2) :
    b2.chunkDict.lookup dd = some (min c ck) := by
  unfold Builder.addArray at hok
  split at hok
  · exact absurd hok (by simp)
  · unfold Builder.addArrayCore at hok
    rw [hdims] at hok
    replace hok : (match Builder.addAxes vid arr b dims.enum with
      | Except.error e => Except.error e
      | Except.ok b3 => Except.ok { b3 with arrayDict := dset b3.arrayDict vid arr }) =
        Except.ok b2 := hok
    cases hax : Builder.addAxes vid arr b dims.enum with
    | error e => rw [hax] at hok; exact absurd hok (by simp)
    | ok b3 =>
      rw [hax] at hok
      have hb2 : b2 = { b3 with arrayDict := dset b3.arrayDict vid arr } :=
        (Except.ok.inj hok).symm
      have hchunk : b2.chunkDict = b3.chunkDict := by rw [hb2]
      rw [hchunk]
      have hlt : i < dims.length := (List.get?_eq_some.mp hdd).1
      refine addAxes_chunk_min hdask ?_ ?_ ?_ hc hck hax
      · exact List.Nodup.of_map Prod.fst
          (by rw [List.enum_map_fst]; exact List.nodup_range _)
      · rw [List.mem_enum_iff_getElem?, ← List.get?_eq_getElem?]
        exact hdd
      · intro p hp hpd
        have hpe : dims[p.1]? = some p.2 := List.mem_enum_iff_getElem?.mp hp
        rw [← List.get?_eq_getElem?] at hpe
        have hij : i = p.1 := by
          refine List.get?_inj hlt hnodup ?_
          rw [hdd, hpe, hpd]
        cases p with
        | mk j e =>
          simp only at hpd hij
          rw [← hij, hpd]

/-! ## Store semantics: correspondence with the functional embedding -/

theorem mapM_congr {α β ε : Type} {l : List α} {F G : α → Except ε β}
    (h : ∀ a ∈ l, F a = G a) : l.mapM F = l.mapM G := by
  induction l with
  | nil => rfl
  | cons a l ih =>
    rw [List.mapM_cons, List.mapM_cons, h a (by simp),
      ih fun a2 ha2 => h a2 (by simp [ha2])]

theorem lookup_map_entry {γ : Type} (F : Nat × (String × Arr) → γ) (k : String) :
    ∀ L : List (Nat × (String × Arr)),
      ((L.map fun p => (p.2.1, F p)).lookup k) =
        (L.find? fun p => k == p.2.1).map F := by
  intro L
  induction L with
  | nil => rfl
  | cons q L ih =>
    rw [List.map_cons, List.lookup, List.find?]
    cases hb : (k == q.2.1) with
    | true => rfl
    | false => exact ih

theorem zip_get? (names : List String) (feats : List Arr) (i : Nat) :
    (names.zip feats).get? i =
      (names.get? i).bind fun x => (feats.get? i).map fun y => (x, y) :=
  zipWith_get? Prod.mk names feats i

theorem mem_enum_rev_get? {names : List String} {feats : List Arr}
    {p : Nat × (String × Arr)} (hp : p ∈ (names.zip feats).enum.reverse) :
    names.get? p.1 = some p.2.1 ∧ feats.get? p.1 = some p.2.2 := by
  rw [List.mem_reverse] at hp
  have hz : (names.zip feats)[p.1]? = some p.2 := List.mem_enum_iff_getElem?.mp hp
  rw [← List.get?_eq_getElem?, zip_get? names feats p.1] at hz
  rcases Option.bind_eq_some.mp hz with ⟨x, hx, hmap⟩
  rcases Option.map_eq_some.mp hmap with ⟨y, hy, hxy⟩
  constructor
  · rw [hx, ← hxy]
  · rw [hy, ← hxy]

theorem featDict_find (names : List String) (feats : List Arr) (name : String) :
    featDict names feats name =
      (((names.zip feats).enum.reverse).find? fun p => name == p.2.1).map
        fun p => p.2.2 := by
  unfold featDict
  rw [show (names.zip feats).reverse =
      ((names.zip feats).enum.reverse).map fun p => (p.2.1, p.2.2) by
    rw [List.map_reverse]
    congr 1
    conv_lhs => rw [← List.enum_map_snd (names.zip feats)]]
  exact lookup_map_entry _ name _

theorem featDict_map_find (names : List String) (feats : List Arr) (f : Arr → Arr)
    (name : String) :
    featDict names (feats.map f) name =
      (((names.zip feats).enum.reverse).find? fun p => name == p.2.1).map
        fun p => f p.2.2 := by
  unfold featDict
  rw [show (names.zip (feats.map f)).reverse =
      ((names.zip feats).enum.reverse).map fun p => (p.2.1, f p.2.2) by
    rw [List.zip_map_right, List.map_reverse]
    congr 1
    conv_lhs => rw [← List.enum_map_snd (names.zip feats)]
    rw [List.map_map]
    rfl]
  exact lookup_map_entry _ name _

theorem refDict_find (names : List String) (feats : List Arr)
    (win : Option (Nat × Nat)) (name : String) :
    refDict names feats win name =
      (((names.zip feats).enum.reverse).find? fun p => name == p.2.1).map
        (refOf win) := by
  unfold refDict
  rw [← List.map_reverse]
  exact lookup_map_entry _ name _

theorem fcSTLoop_eq (M : Model) (refs : String → Option Ref)
    (fd : String → Option Arr) (s : List Arr)
    (hchl : refs VID_CHL = some Ref.localChl)
    (hother : ∀ name, name ≠ VID_CHL →
      (refs name = none ∧ fd name = none) ∨
      ∃ r a, refs name = some r ∧ fd name = some a ∧ ∀ lc, deref s lc r = some a) :
    ∀ h lc, fcSTLoop M refs h s lc = (fcLoop M fd h lc).map fun y => (s, y) := by
  intro h
  induction h with
  | zero => intro lc; rfl
  | succ h ih =>
    intro lc
    have hcols : (M.columns.mapM fun c =>
        match refs c.2 with
        | none => Except.error (Err.keyError c.2)
        | some r =>
          match deref s lc r with
          | none => Except.error Err.indexError
          | some a =>
            match pyGet a (c.1 - ((h : Int) + 1)) with
            | none => Except.error Err.indexError
            | some g => Except.ok g) =
        tableCols M (withChl fd lc) (h + 1) := by
      unfold tableCols
      refine mapM_congr ?_
      intro c _
      have hidx : ∀ a : Arr, pyGet a (c.1 - ((h : Int) + 1)) =
          pyGet a (c.1 - ((h + 1 : Nat) : Int)) := fun a => rfl
      by_cases hc2 : c.2 = VID_CHL
      · rw [hc2, hchl]
        have hw : withChl fd lc VID_CHL = some lc := by
          unfold withChl
          rw [if_pos rfl]
        simp only [hw, deref, hidx lc]
      · have hw : withChl fd lc c.2 = fd c.2 := by
          unfold withChl
          rw [if_neg hc2]
        rcases hother c.2 hc2 with ⟨hr, hf⟩ | ⟨r, a, hr, hf, hder⟩
        · rw [hr, hw, hf]
        · simp only [hr, hw, hf, hder lc, hidx a]
    unfold fcSTLoop fcLoop
    rw [hcols]
    cases htc : tableCols M (withChl fd lc) (h + 1) with
    | error e => rfl
    | ok cols =>
      show (match tableT cols with
        | Except.error e => Except.error e
        | Except.ok rows =>
          match refs VID_CHL with
          | none => Except.error (Err.keyError VID_CHL)
          | some r =>
            match writeRefDay s lc r (-((h : Int) + 1)) (predictRows M rows) with
            | none => Except.error Err.indexError
            | some p => fcSTLoop M refs h p.1 p.2) =
        Except.map (fun y => (s, y))
          (match tableT cols with
          | Except.error e => Except.error e
          | Except.ok rows =>
            match pySet lc (-((h : Int) + 1)) (predictRows M rows) with
            | none => Except.error Err.indexError
            | some y2 => fcLoop M fd h y2)
      cases htt : tableT cols with
      | error e => rfl
      | ok rows =>
        rw [hchl]
        show (match (pySet lc (-((h : Int) + 1)) (predictRows M rows)).map
            (fun lc2 => (s, lc2)) with
          | none => Except.error Err.indexError
          | some p => fcSTLoop M refs h p.1 p.2) =
          Except.map (fun y => (s, y))
            (match pySet lc (-((h : Int) + 1)) (predictRows M rows) with
            | none => Except.error Err.indexError
            | some y2 => fcLoop M fd h y2)
        cases hps : pySet lc (-((h : Int) + 1)) (predictRows M rows) with
        | none => rfl
        | some lc2 => exact ih lc2

theorem fcST_ok (M : Model) (H : Nat) (refs : String → Option Ref)
    (fd : String → Option Arr) (s : List Arr) (lc : Arr)
    (hchl : refs VID_CHL = some Ref.localChl)
    (hfdchl : fd VID_CHL = some lc)
    (hother : ∀ name, name ≠ VID_CHL →
      (refs name = none ∧ fd name = none) ∨
      ∃ r a, refs name = some r ∧ fd name = some a ∧ ∀ lc2, deref s lc2 r = some a)
    {out : Arr} {s2 : List Arr} {lc2 : Arr}
    (h : fcST M H refs s lc = .ok (out, s2, lc2)) :
    s2 = s ∧ fc M H fd = .ok out := by
  unfold fcST at h
  rw [hchl] at h
  have hno3ne : VID_NO3 ≠ VID_CHL := by decide
  rcases hother VID_NO3 hno3ne with ⟨hr, hf⟩ | ⟨rno3, a, hr, hf, hder⟩
  · rw [hr] at h
    exact absurd h (by simp)
  · rw [hr] at h
    replace h : (match fcSTLoop M refs H s lc with
      | Except.error e => Except.error e
      | Except.ok p =>
        match deref p.1 p.2 Ref.localChl with
        | none => Except.error Err.indexError
        | some y =>
          match deref p.1 p.2 rno3 with
          | none => Except.error Err.indexError
          | some z =>
            match writeRegion p.1 p.2 Ref.localChl (nullify y z) with
            | none => Except.error Err.indexError
            | some q => Except.ok (pySliceLast H (nullify y z), q.1, q.2)) =
        Except.ok (out, s2, lc2) := h
    rw [fcSTLoop_eq M refs fd s hchl hother H lc] at h
    cases hl : fcLoop M fd H lc with
    | error e =>
      rw [hl] at h
      exact absurd h (by simp [Except.map])
    | ok y2 =>
      rw [hl] at h
      replace h : (match deref s y2 rno3 with
        | none => Except.error Err.indexError
        | some z =>
          match writeRegion s y2 Ref.localChl (nullify y2 z) with
          | none => Except.error Err.indexError
          | some q => Except.ok (pySliceLast H (nullify y2 z), q.1, q.2)) =
          Except.ok (out, s2, lc2) := h
      rw [hder y2] at h
      replace h : Except.ok ((pySliceLast H (nullify y2 a), s, nullify y2 a) :
          Arr × List Arr × Arr) = Except.ok (out, s2, lc2) := h
      have htup := Except.ok.inj h
      constructor
      · exact (congrArg (fun t : Arr × List Arr × Arr => t.2.1) htup).symm
      · have h1 := congrArg (fun t : Arr × List Arr × Arr => t.1) htup
        unfold fc
        simp only [hfdchl, hf, hl]
        rw [show pySliceLast H (nullify y2 a) = out from h1]

theorem find?_key {p : Nat × (String × Arr)} {L : List (Nat × (String × Arr))}
    {name : String} (hf : L.find? (fun p => name == p.2.1) = some p) :
    p.2.1 = name := by
  have hb := List.find?_some hf
  exact (beq_iff_eq.mp hb).symm

theorem refDict_chl_plain (names : List String) (feats : List Arr) :
    (refDict names feats none VID_CHL = none ∧
      featDict names feats VID_CHL = none) ∨
    ∃ a, refDict names feats none VID_CHL = some Ref.localChl ∧
      featDict names feats VID_CHL = some a := by
  rw [refDict_find, featDict_find]
  cases hf : ((names.zip feats).enum.reverse).find? fun p => VID_CHL == p.2.1 with
  | none => exact Or.inl ⟨rfl, rfl⟩
  | some p =>
    right
    refine ⟨p.2.2, ?_, rfl⟩
    show some (refOf none p) = some Ref.localChl
    unfold refOf
    rw [if_pos (find?_key hf)]

theorem refDict_none_other (names : List String) (feats : List Arr) :
    ∀ name, name ≠ VID_CHL →
      (refDict names feats none name = none ∧ featDict names feats name = none) ∨
      ∃ r a, refDict names feats none name = some r ∧
        featDict names feats name = some a ∧
        ∀ lc, deref feats lc r = some a := by
  intro name hne
  rw [refDict_find, featDict_find]
  cases hf : ((names.zip feats).enum.reverse).find? fun p => name == p.2.1 with
  | none => exact Or.inl ⟨rfl, rfl⟩
  | some p =>
    right
    have hkey : p.2.1 = name := find?_key hf
    have hget := mem_enum_rev_get? (List.mem_of_find?_eq_some hf)
    refine ⟨refOf none p, p.2.2, rfl, rfl, ?_⟩
    intro lc
    unfold refOf
    rw [if_neg (by rw [hkey]; exact hne)]
    show Option.map (fun a => pySlice a 0 (0 + p.2.2.length)) (feats.get? p.1) =
      some p.2.2
    rw [hget.2]
    show some (pySlice p.2.2 0 (0 + p.2.2.length)) = some p.2.2
    rw [pySlice_zero_all (by omega)]

theorem refDict_chl_win (names : List String) (feats : List Arr) (t n H : Nat) :
    (refDict names feats (some (t, n + H)) VID_CHL = none ∧
      featDict names feats VID_CHL = none) ∨
    ∃ a, refDict names feats (some (t, n + H)) VID_CHL = some Ref.localChl ∧
      featDict names feats VID_CHL = some a ∧
      featDict names (feats.map fun a => pySlice a t (t + n + H)) VID_CHL =
        some (pySlice a t (t + n + H)) := by
  rw [refDict_find, featDict_find, featDict_map_find]
  cases hf : ((names.zip feats).enum.reverse).find? fun p => VID_CHL == p.2.1 with
  | none => exact Or.inl ⟨rfl, rfl⟩
  | some p =>
    right
    refine ⟨p.2.2, ?_, rfl, rfl⟩
    show some (refOf (some (t, n + H)) p) = some Ref.localChl
    unfold refOf
    rw [if_pos (find?_key hf)]

theorem refDict_win_other (names : List String) (feats : List Arr) (t n H : Nat) :
    ∀ name, name ≠ VID_CHL →
      (refDict names feats (some (t, n + H)) name = none ∧
        featDict names (feats.map fun a => pySlice a t (t + n + H)) name = none) ∨
      ∃ r a, refDict names feats (some (t, n + H)) name = some r ∧
        featDict names (feats.map fun a => pySlice a t (t + n + H)) name = some a ∧
        ∀ lc, deref feats lc r = some a := by
  intro name hne
  rw [refDict_find, featDict_map_find]
  cases hf : ((names.zip feats).enum.reverse).find? fun p => name == p.2.1 with
  | none => exact Or.inl ⟨rfl, rfl⟩
  | some p =>
    right
    have hkey : p.2.1 = name := find?_key hf
    have hget := mem_enum_rev_get? (List.mem_of_find?_eq_some hf)
    refine ⟨refOf (some (t, n + H)) p, pySlice p.2.2 t (t + n + H), rfl, rfl, ?_⟩
    intro lc
    unfold refOf
    rw [if_neg (by rw [hkey]; exact hne)]
    show Option.map (fun a => pySlice a t (t + (n + H))) (feats.get? p.1) =
      some (pySlice p.2.2 t (t + n + H))
    rw [hget.2]
    show some (pySlice p.2.2 t (t + (n + H))) = some (pySlice p.2.2 t (t + n + H))
    rw [Nat.add_assoc]

theorem testLoopST_ok (M : Model) (H n : Nat) (names : List String) (feats : List Arr) :
    ∀ (ts : List Nat) {ys : Arr} {store2 : List Arr},
      testLoopST M H n names ts feats = .ok (ys, store2) →
      store2 = feats ∧
      (ts.mapM fun t =>
        match fc M H (featDict names (feats.map fun a => pySlice a t (t + n + H))) with
        | Except.error e => Except.error e
        | Except.ok out =>
          match pyGet out (-1) with
          | none => Except.error Err.indexError
          | some g => Except.ok g) = .ok ys := by
  intro ts
  induction ts with
  | nil =>
    intro ys store2 h
    replace h : Except.ok (([] : Arr), feats) = Except.ok (ys, store2) := h
    have htup := Except.ok.inj h
    injection htup with h1 h2
    constructor
    · exact h2.symm
    · rw [List.mapM_nil, ← h1]
      rfl
  | cons t ts ih =>
    intro ys store2 h
    replace h : (match fcST M H (refDict names feats (some (t, n + H))) feats
        (((featDict names feats VID_CHL).map fun a => pySlice a t (t + n + H)).getD []) with
      | Except.error e => Except.error e
      | Except.ok r =>
        match pyGet r.1 (-1) with
        | none => Except.error Err.indexError
        | some g =>
          match testLoopST M H n names ts r.2.1 with
          | Except.error e => Except.error e
          | Except.ok rest => Except.ok (g :: rest.1, rest.2)) =
        Except.ok (ys, store2) := h
    rcases refDict_chl_win names feats t n H with ⟨hrc, _⟩ | ⟨a0, hrc, hfc0, hfcw⟩
    · have hstE : fcST M H (refDict names feats (some (t, n + H))) feats
          (((featDict names feats VID_CHL).map fun a => pySlice a t (t + n + H)).getD []) =
          Except.error (Err.keyError VID_CHL) := by
        unfold fcST
        rw [hrc]
      rw [hstE] at h
      exact absurd h (by simp)
    · have hlc : (((featDict names feats VID_CHL).map
          fun a => pySlice a t (t + n + H)).getD []) = pySlice a0 t (t + n + H) := by
        rw [hfc0]
        rfl
      rw [hlc] at h
      cases hst : fcST M H (refDict names feats (some (t, n + H))) feats
          (pySlice a0 t (t + n + H)) with
      | error e =>
        rw [hst] at h
        exact absurd h (by simp)
      | ok r =>
        obtain ⟨out, s2, lc2⟩ := r
        rcases fcST_ok M H _ (featDict names (feats.map fun a => pySlice a t (t + n + H)))
          feats (pySlice a0 t (t + n + H)) hrc hfcw (refDict_win_other names feats t n H)
          hst with ⟨hs2, hfcpure⟩
        rw [hst] at h
        replace h : (match pyGet out (-1) with
          | none => Except.error Err.indexError
          | some g =>
            match testLoopST M H n names ts s2 with
            | Except.error e => Except.error e
            | Except.ok rest => Except.ok (g :: rest.1, rest.2)) =
            Except.ok (ys, store2) := h
        rw [hs2] at h
        cases hpg : pyGet out (-1) with
        | none =>
          rw [hpg] at h
          exact absurd h (by simp)
        | some g =>
          rw [hpg] at h
          cases hrest : testLoopST M H n names ts feats with
          | error e =>
            rw [hrest] at h
            exact absurd h (by simp)
          | ok rest =>
            obtain ⟨gs, st3⟩ := rest
            rw [hrest] at h
            replace h : Except.ok ((g :: gs, st3) : Arr × List Arr) =
              Except.ok (ys, store2) := h
            have htup := Except.ok.inj h
            injection htup with h1 h2
            rcases ih hrest with ⟨hst3, hmap⟩
            constructor
            · rw [← h2, hst3]
            · rw [List.mapM_cons, ← h1]
              simp only [hfcpure, hpg, hmap]
              rfl

/-- **C10** — Every forecast invocation, in both test and non-test mode,
leaves the caller-supplied feature arrays unchanged, and computes exactly
the functional result: in the store semantics (where non-chlorophyll
dictionary entries alias the caller's buffers and only the chlorophyll
entry is a fresh copy), the final store equals the input store, and the
result coincides with the purely functional `forecast` — so in test mode
every sliding window reads the caller's original input history, never a
previous window's predictions. -/
theorem forecastST_preserves_inputs (M : Model) (H : Nat) (test : Bool)
    (names : List String) (feats : List Arr) {y : Arr} {store2 : List Arr}
    (h : forecastST M H test names feats = .ok (y, store2)) :
    store2 = feats ∧ forecast M H test names feats = .ok y := by
  cases test with
  | false =>
    replace h : (fcST M H (refDict names feats none) feats
        ((featDict names feats VID_CHL).getD [])).map (fun r => (r.1, r.2.1)) =
        Except.ok (y, store2) := h
    rcases refDict_chl_plain names feats with ⟨hrc, _⟩ | ⟨a0, hrc, hfc0⟩
    · have hstE : fcST M H (refDict names feats none) feats
          ((featDict names feats VID_CHL).getD []) =
          Except.error (Err.keyError VID_CHL) := by
        unfold fcST
        rw [hrc]
      rw [hstE] at h
      exact absurd h (by simp [Except.map])
    · have hlc : (featDict names feats VID_CHL).getD [] = a0 := by
        rw [hfc0]
        rfl
      rw [hlc] at h
      cases hst : fcST M H (refDict names feats none) feats a0 with
      | error e =>
        rw [hst] at h
        exact absurd h (by simp [Except.map])
      | ok r =>
        obtain ⟨out, s2, lc2⟩ := r
        rcases fcST_ok M H _ (featDict names feats) feats a0 hrc hfc0
          (refDict_none_other names feats) hst with ⟨hs2, hfcpure⟩
        rw [hst] at h
        replace h : Except.ok ((out, s2) : Arr × List Arr) = Except.ok (y, store2) := h
        have htup := Except.ok.inj h
        injection htup with h1 h2
        constructor
        · rw [← h2, hs2]
        · show fc M H (featDict names feats) = Except.ok y
          rw [hfcpure, h1]
  | true =>
    cases feats with
    | nil =>
      replace h : (Except.error Err.indexError : Except Err (Arr × List Arr)) =
        Except.ok (y, store2) := h
      exact absurd h (by simp)
    | cons f0 rest =>
      by_cases hm : ((f0.length : Int) - M.history - H + 1) < 0
      · rw [show forecastST M H true names (f0 :: rest) =
            (if ((f0.length : Int) - (M.history : Int) - (H : Int) + 1) < 0 then
              Except.error Err.valueError
            else testLoopST M H M.history names
              (List.range ((f0.length : Int) - (M.history : Int) - (H : Int) + 1).toNat)
              (f0 :: rest)) from rfl, if_pos hm] at h
        exact absurd h (by simp)
      · rw [show forecastST M H true names (f0 :: rest) =
            (if ((f0.length : Int) - (M.history : Int) - (H : Int) + 1) < 0 then
              Except.error Err.valueError
            else testLoopST M H M.history names
              (List.range ((f0.length : Int) - (M.history : Int) - (H : Int) + 1).toNat)
              (f0 :: rest)) from rfl, if_neg hm] at h
        rcases testLoopST_ok M H M.history names (f0 :: rest) _ h with ⟨hstore, hmapM⟩
        refine ⟨hstore, ?_⟩
        rw [show forecast M H true names (f0 :: rest) =
            (if ((f0.length : Int) - (M.history : Int) - (H : Int) + 1) < 0 then
              Except.error Err.valueError
            else ((List.range ((f0.length : Int) - (M.history : Int) - (H : Int) + 1).toNat).mapM
              fun t =>
                match fc M H (featDict names
                    ((f0 :: rest).map fun a => pySlice a t (t + M.history + H))) with
                | Except.error e => Except.error e
                | Except.ok out =>
                  match pyGet out (-1) with
                  | none => Except.error Err.indexError
                  | some g => Except.ok g)) from rfl, if_neg hm]
        exact hmapM

/-! ## Concrete witnesses -/

/-- Witness for the C1 theorem: a three-column model (history 1),
horizon 2, 3-day single-pixel inputs. -/
theorem forecast_horizon_days_or_insufficient_w :
    ∃ out, forecast ⟨[((0 : Int), VID_CHL), (-1, VID_CHL), (0, VID_NO3)],
        fun _ => Val.fin 1⟩ 2 false ["chl", "no3"]
        [[[.fin 1], [.fin 2], [.fin 3]], [[.fin 4], [.fin 5], [.fin 6]]] = .ok out ∧
      out.length = 2 ∧ Uniform 1 out :=
  (forecast_horizon_days_or_insufficient
    ⟨[(0, VID_CHL), (-1, VID_CHL), (0, VID_NO3)], fun _ => Val.fin 1⟩ 2 1 3
    ["chl", "no3"] [[[.fin 1], [.fin 2], [.fin 3]], [[.fin 4], [.fin 5], [.fin 6]]]
    (by decide) (by decide) (by decide) (by decide) (by decide) (by decide)
    (by decide) (by decide)).1 (by decide)

/-- Witness for the C2 theorem at the same concrete model and input. -/
theorem forecast_test_day_count_w :
    ∃ ys, forecast ⟨[((0 : Int), VID_CHL), (-1, VID_CHL), (0, VID_NO3)],
        fun _ => Val.fin 1⟩ 2 true ["chl", "no3"]
        [[[.fin 1], [.fin 2], [.fin 3]], [[.fin 4], [.fin 5], [.fin 6]]] = .ok ys ∧
      ys.length = 3 - (Model.mk [((0 : Int), VID_CHL), (-1, VID_CHL), (0, VID_NO3)]
        (fun _ => Val.fin 1)).history - 2 + 1 ∧
      (3 = (Model.mk [((0 : Int), VID_CHL), (-1, VID_CHL), (0, VID_NO3)]
          (fun _ => Val.fin 1)).history + 2 →
        ∃ out g, forecast ⟨[((0 : Int), VID_CHL), (-1, VID_CHL), (0, VID_NO3)],
            fun _ => Val.fin 1⟩ 2 false ["chl", "no3"]
            [[[.fin 1], [.fin 2], [.fin 3]], [[.fin 4], [.fin 5], [.fin 6]]] = .ok out ∧
          out.getLast? = some g ∧ ys = [g]) :=
  forecast_test_day_count
    ⟨[(0, VID_CHL), (-1, VID_CHL), (0, VID_NO3)], fun _ => Val.fin 1⟩ 2 1 3
    ["chl", "no3"] [[[.fin 1], [.fin 2], [.fin 3]], [[.fin 4], [.fin 5], [.fin 6]]]
    (by decide) (by decide) (by decide) (by decide) (by decide) (by decide)
    (by decide) (by decide) (by decide)

/-- Witness for the C3 theorem at a single-pixel concrete input. -/
theorem forecast_autoregressive_scenario_w :
    ∃ pred0 pred1 : Grid,
      pred0 = predictRows ⟨[(0, VID_CHL), (-1, VID_CHL), (0, VID_NO3)], fun _ => Val.fin 1⟩
        ((List.range 1).map fun q =>
          [[Val.fin 2].getD q Val.nan, [Val.fin 1].getD q Val.nan,
            [Val.fin 5].getD q Val.nan]) ∧
      pred1 = predictRows ⟨[(0, VID_CHL), (-1, VID_CHL), (0, VID_NO3)], fun _ => Val.fin 1⟩
        ((List.range 1).map fun q =>
          [[Val.fin 3].getD q Val.nan, pred0.getD q Val.nan,
            [Val.fin 6].getD q Val.nan]) ∧
      forecast ⟨[(0, VID_CHL), (-1, VID_CHL), (0, VID_NO3)], fun _ => Val.fin 1⟩ 2 false
          [VID_CHL, VID_NO3] [[[Val.fin 1], [Val.fin 2], [Val.fin 3]],
            [[Val.fin 4], [Val.fin 5], [Val.fin 6]]] =
        .ok [List.zipWith (fun a b => if b.isFinite then a else Val.nan) pred0 [Val.fin 5],
          List.zipWith (fun a b => if b.isFinite then a else Val.nan) pred1 [Val.fin 6]] :=
  forecast_autoregressive_scenario (fun _ => Val.fin 1) 1
    [Val.fin 1] [Val.fin 2] [Val.fin 3] [Val.fin 4] [Val.fin 5] [Val.fin 6]
    rfl rfl rfl rfl rfl rfl

/-- Witness for the C4 theorem: nitrate is NaN on the first forecast day,
so the returned value there is NaN although the model predicted 1. -/
theorem forecast_nitrate_mask_nan_w :
    ∃ g, ([[Val.nan], [Val.fin 1]] : Arr).get? 0 = some g ∧ g.get? 0 = some Val.nan :=
  @forecast_nitrate_mask_nan
    ⟨[(0, VID_CHL), (-1, VID_CHL), (0, VID_NO3)], fun _ => Val.fin 1⟩ 2 1 3
    ["chl", "no3"] [[[.fin 1], [.fin 2], [.fin 3]], [[.fin 4], [.nan], [.fin 6]]]
    (by decide) (by decide) (by decide) (by decide) (by decide) (by decide)
    (by decide) (by decide) (by decide)
    [[Val.nan], [Val.fin 1]] (by decide)
    [[.fin 4], [.nan], [.fin 6]] (by decide)
    0 0 (by decide) [Val.nan] (by decide)
    Val.nan (by decide) (by decide)

/-- Witness for the C5 theorem at a concrete call whose output is
`[[1], [1]]`, read at the first day's first pixel. -/
theorem forecast_values_nonneg_w :
    forecast ⟨[((0 : Int), VID_CHL), (-1, VID_CHL), (0, VID_NO3)], fun _ => Val.fin 1⟩
        2 false ["chl", "no3"]
        [[[.fin 1], [.fin 2], [.fin 3]], [[.fin 4], [.fin 5], [.fin 6]]] =
      .ok [[Val.fin 1], [Val.fin 1]] ∧ (Val.fin 1).nonneg :=
  ⟨by decide, @forecast_values_nonneg
    ⟨[(0, VID_CHL), (-1, VID_CHL), (0, VID_NO3)], fun _ => Val.fin 1⟩ 2 1 3
    ["chl", "no3"] [[[.fin 1], [.fin 2], [.fin 3]], [[.fin 4], [.fin 5], [.fin 6]]]
    (by decide) (by decide) (by decide) (by decide) (by decide) (by decide)
    (by decide) (by decide) (by decide)
    [[Val.fin 1], [Val.fin 1]] (by decide)
    [Val.fin 1] (by decide) (Val.fin 1) (by decide) (by decide)⟩

/-- Witness for the C6 theorem: the columns parsed from
`["chl", "t-1_chl", "no3"]`, against the permutation
`["no3", "chl", "t-1_chl"]`. -/
theorem load_model_history_min_offset_w :
    ∃ m cols', (([((0 : Int), "chl"), (-1, "chl"), (0, "no3")].map Prod.fst).min? = some m) ∧
      ((Model.mk [((0 : Int), "chl"), (-1, "chl"), (0, "no3")]
        (fun _ => Val.fin 1)).history : Int) = max 0 (-m) ∧
      loadColumns ["no3", "chl", "t-1_chl"] = some cols' ∧
      (Model.mk cols' (fun _ => Val.fin 1)).history =
        (Model.mk [((0 : Int), "chl"), (-1, "chl"), (0, "no3")]
          (fun _ => Val.fin 1)).history :=
  load_model_history_min_offset (fun _ => Val.fin 1)
    ["chl", "t-1_chl", "no3"] ["no3", "chl", "t-1_chl"]
    [(0, "chl"), (-1, "chl"), (0, "no3")]
    (by decide) (by decide) (by decide)

/-- Witness for the C8 theorem: the spec scenario — `time` declared at
size 3, then a 4-day array bound on `time` fails at the binding call. -/
theorem builder_add_array_shape_mismatch_w :
    ((Builder.empty.addDim "time" 3 none).bind fun b0 => b0.addVar "v" ["time"]) =
      .ok (Builder.mk [] [("v", ["time"])] [("time", 3)] [("time", 3)]) ∧
    ∃ msg, (Builder.mk [] [("v", ["time"])] [("time", 3)] [("time", 3)]).addArray "v"
        ⟨[4], [4], true⟩ = .error (.assertionError msg) :=
  ⟨by decide, builder_add_array_shape_mismatch
    (Builder.mk [] [("v", ["time"])] [("time", 3)] [("time", 3)]) "v" ⟨[4], [4], true⟩
    ["time"] 0 "time" 3 4 (by decide) (by decide) (by decide) (by decide) (by decide)
    (by decide)⟩

/-- Witness for the amended C9 theorem: recorded chunk 3, array chunk 2;
after binding, the record is `min 3 2 = 2`. -/
theorem builder_chunk_record_min_w :
    (Builder.mk [] [("v", ["time"])] [("time", 4)] [("time", 3)]).addArray "v"
        ⟨[4], [2], true⟩ =
      .ok (Builder.mk [("v", ⟨[4], [2], true⟩)] [("v", ["time"])]
        [("time", 4)] [("time", 2)]) ∧
    (Builder.mk [("v", ⟨[4], [2], true⟩)] [("v", ["time"])]
      [("time", 4)] [("time", 2)]).chunkDict.lookup "time" = some (min 3 2) :=
  ⟨by decide, builder_chunk_record_min
    (Builder.mk [] [("v", ["time"])] [("time", 4)] [("time", 3)])
    (Builder.mk [("v", ⟨[4], [2], true⟩)] [("v", ["time"])] [("time", 4)] [("time", 2)])
    "v" ⟨[4], [2], true⟩ ["time"] 0 "time" 3 2
    (by decide) (by decide) (by decide) (by decide) (by decide) (by decide) (by decide)⟩

/-- Witness for the C10 theorem at a concrete non-test-mode call. -/
theorem forecastST_preserves_inputs_w :
    ([[[Val.fin 1], [Val.fin 2], [Val.fin 3]], [[Val.fin 4], [Val.fin 5], [Val.fin 6]]] :
        List Arr) =
      [[[Val.fin 1], [Val.fin 2], [Val.fin 3]], [[Val.fin 4], [Val.fin 5], [Val.fin 6]]] ∧
    forecast ⟨[((0 : Int), VID_CHL), (-1, VID_CHL), (0, VID_NO3)], fun _ => Val.fin 1⟩
        2 false ["chl", "no3"]
        [[[.fin 1], [.fin 2], [.fin 3]], [[.fin 4], [.fin 5], [.fin 6]]] =
      .ok [[Val.fin 1], [Val.fin 1]] :=
  forecastST_preserves_inputs
    ⟨[(0, VID_CHL), (-1, VID_CHL), (0, VID_NO3)], fun _ => Val.fin 1⟩ 2 false
    ["chl", "no3"] [[[.fin 1], [.fin 2], [.fin 3]], [[.fin 4], [.fin 5], [.fin 6]]]
    (by decide)

end WQF


